import Mathlib

/-!
Verification development for the OpenAPI-to-tool proxy engine
(`mcp_openapi_proxy`): a shallow embedding of the tool-name normalizer
(`utils.normalize_tool_name`), the whitelist filter
(`utils.is_tool_whitelisted`), registry construction and lookup
(`openapi.register_functions`, `openapi.lookup_operation_details`,
`server_lowlevel.register_functions`, `server_lowlevel.lookup_operation_details`),
the request dispatchers (`server_lowlevel.dispatcher_handler`,
`server_fastmcp.call_function`) and response classification
(`utils.detect_response_type`), together with theorems about the
behavioural claims of the specification.

Modelling conventions:
* Python strings are `String`/`List Char`; Python dicts are insertion-ordered
  association lists with unique keys (as `dict` guarantees).
* Environment configuration (`TOOL_WHITELIST`, `TOOL_NAME_PREFIX`, ...) is a
  `Config` record passed explicitly.
* The HTTP call performed by a dispatcher is an oracle argument
  (`Except String String`: exception message or response text), and the
  `json.loads` of a response body is an oracle `Option JVal`.
* Argument values (which are arbitrary JSON values in Python) are modelled as
  the strings they are substituted as (`str(value)`); Python truthiness of a
  value is modelled as the string being nonempty.
* Scanning functions that skip past a matched substring are written with an
  explicit fuel argument (initialised to the list length) so that they stay
  structurally recursive and kernel-reducible; congruence lemmas show the
  fuel is irrelevant once it covers the input length.
-/

namespace MOP

/-- Opening brace character, written via its code point. -/
def lbrace : Char := Char.ofNat 123

/-- Closing brace character, written via its code point. -/
def rbrace : Char := Char.ofNat 125

/-- Single-quote character (used by Python `repr` of strings). -/
def squote : Char := Char.ofNat 39

/-- The single-quote as a string. -/
def sqS : String := String.singleton squote

/-- `leadsL pat l` is true when the list `l` starts with `pat`
(Python `str.startswith`). -/
def leadsL : List Char → List Char → Bool
  | [], _ => true
  | _ :: _, [] => false
  | p :: ps, c :: cs => p == c && leadsL ps cs

/-- `leadsS pat s`: the string `s` starts with `pat`. -/
def leadsS (pat s : String) : Bool := leadsL pat.toList s.toList

/-- `endsL pat l` is true when `l` ends with `pat` (Python `str.endswith`). -/
def endsL (pat l : List Char) : Bool := leadsL pat.reverse l.reverse

/-- `hasSub pat l`: some suffix of `l` starts with `pat`
(Python substring test `pat in l`). -/
def hasSub (pat : List Char) : List Char → Bool
  | [] => pat.isEmpty
  | c :: rest => leadsL pat (c :: rest) || hasSub pat rest

/-- Python `str.lstrip(chars)` restricted to a character predicate. -/
def lstripP (p : Char → Bool) (l : List Char) : List Char := l.dropWhile p

/-- Python `str.rstrip(chars)` restricted to a character predicate. -/
def rstripP (p : Char → Bool) (l : List Char) : List Char :=
  (l.reverse.dropWhile p).reverse

/-- Python `str.strip(chars)` (both ends) for a character predicate. -/
def stripP (p : Char → Bool) (l : List Char) : List Char :=
  rstripP p (lstripP p l)

/-- Python `str.strip()` with no argument: strip whitespace from both ends. -/
def stripWS (l : List Char) : List Char := stripP Char.isWhitespace l

/-- String version of `stripWS`. -/
def stripWSs (s : String) : String := String.mk (stripWS s.toList)

/-- Python `str.split(sep)` for a single separator character: splits on every
occurrence, keeping empty pieces (`"a//b".split("/") == ["a","","b"]`). -/
def splitChar (sep : Char) : List Char → List (List Char)
  | [] => [[]]
  | c :: r =>
    if c == sep then [] :: splitChar sep r
    else
      match splitChar sep r with
      | p :: ps => (c :: p) :: ps
      | [] => [[c]]

/-- Python `s.split(" ", 1)` when a space is present: the text before the
first space and the text after it; `none` when `s` has no space. -/
def splitSp : List Char → Option (List Char × List Char)
  | [] => none
  | c :: r =>
    if c == ' ' then some ([], r)
    else (splitSp r).map (fun ab => (c :: ab.1, ab.2))

/-- Python `str.lower` (ASCII, as used on ASCII method names). -/
def pyLower (s : String) : String := String.mk (s.toList.map Char.toLower)

/-- Python `str.upper` (ASCII). -/
def pyUpper (s : String) : String := String.mk (s.toList.map Char.toUpper)

/-- Python `s[:n]` for an `Int` bound `n`: a nonnegative bound keeps the first
`n` characters, a negative bound drops the last `-n`. -/
def pyTakeInt (n : Int) (l : List Char) : List Char :=
  if 0 ≤ n then l.take n.toNat else l.take ((l.length : Int) + n).toNat

/-- `"sep".join(parts)` for the one-character separator `_`. -/
def joinUnd : List (List Char) → List Char
  | [] => []
  | [p] => p
  | p :: q :: rest => p ++ '_' :: joinUnd (q :: rest)

/-- `sep.join(parts)` for a string separator. -/
def joinSep (sep : String) : List String → String
  | [] => ""
  | [x] => x
  | x :: y :: rest => x ++ sep ++ joinSep sep (y :: rest)

/-- Python `repr` of a string without quotes or backslashes in it. -/
def pyRepr (s : String) : String := sqS ++ s ++ sqS

/-- Python `repr` of a list of such strings, as interpolated into f-strings
by the dispatchers (`"['a', 'b']"`). -/
def pyReprList (l : List String) : String := "[" ++ joinSep ", " (l.map pyRepr) ++ "]"

/-- One match attempt of `re.compile(r"/(api|rest|public)/?")` at the head of
the text: alternatives are tried in order, the optional trailing slash
greedily; on success the text after the consumed match is returned. -/
def stripKey (l : List Char) : Option (List Char) :=
  if leadsL ['/', 'a', 'p', 'i', '/'] l then some (l.drop 5)
  else if leadsL ['/', 'a', 'p', 'i'] l then some (l.drop 4)
  else if leadsL ['/', 'r', 'e', 's', 't', '/'] l then some (l.drop 6)
  else if leadsL ['/', 'r', 'e', 's', 't'] l then some (l.drop 5)
  else if leadsL ['/', 'p', 'u', 'b', 'l', 'i', 'c', '/'] l then some (l.drop 8)
  else if leadsL ['/', 'p', 'u', 'b', 'l', 'i', 'c'] l then some (l.drop 7)
  else none

/-- Fueled scanner for `re.sub(r"/(api|rest|public)/?", "/", path)`: at each
position a match is replaced by a single `/` and scanning resumes after the
consumed text, otherwise the character is copied. -/
def subApiF : Nat → List Char → List Char
  | _, [] => []
  | 0, l => l
  | f + 1, c :: rest =>
    match stripKey (c :: rest) with
    | some l2 => '/' :: subApiF f l2
    | none => c :: subApiF f rest

/-- `re.sub(r"/(api|rest|public)/?", "/", path)` with enough fuel. -/
def subApiPre (l : List Char) : List Char := subApiF l.length l

/-- Helper for the placeholder regex `\x7b([^\x7d]+)\x7d`: on the text after
an opening brace, returns the characters before the first closing brace and
the text after it, or `none` when no closing brace follows. -/
def splitClose : List Char → Option (List Char × List Char)
  | [] => none
  | c :: rest =>
    if c == rbrace then some ([], rest)
    else (splitClose rest).map (fun p => (c :: p.1, p.2))

/-- Fueled scanner behind `re.compile(r"\x7b([^\x7d]+)\x7d")` on one path
segment: returns the segment with every placeholder match removed
(`pattern.sub("", part)`) together with the list of captured placeholder
names (`pattern.findall(part)`), scanning left to right, non-overlapping.
An opening brace with no later closing brace, or with the closing brace
immediately following, is not a match and stays in the text. -/
def braceScanF : Nat → List Char → List Char × List (List Char)
  | _, [] => ([], [])
  | 0, l => (l, [])
  | f + 1, c :: rest =>
    if c == lbrace then
      match splitClose rest with
      | some (inner, tail) =>
        if inner.isEmpty then
          let r := braceScanF f rest
          (c :: r.1, r.2)
        else
          let r := braceScanF f tail
          (r.1, inner :: r.2)
      | none =>
        let r := braceScanF f rest
        (c :: r.1, r.2)
    else
      let r := braceScanF f rest
      (c :: r.1, r.2)

/-- The placeholder scanner with enough fuel for its input. -/
def braceScanL (l : List Char) : List Char × List (List Char) :=
  braceScanF l.length l

/-- Replacement of `.`, `-` and `+` by `_`
(`part.replace(".","_").replace("-","_").replace("+","_")`). -/
def punct2und (c : Char) : Char :=
  if c == '.' || c == '-' || c == '+' then '_' else c

/-- Per-segment normalization step: placeholder segments become
`base_by_param1_param2` (parameter names lower-cased), then punctuation is
replaced by `_`. -/
def procPart (p : List Char) : List Char :=
  let r := braceScanL p
  let p2 :=
    if r.2.isEmpty then p
    else r.1 ++ "_by_".toList ++ joinUnd (r.2.map (List.map Char.toLower))
  p2.map punct2und

/-- `re.sub(r"_+", "_", s)`: collapse runs of underscores; the flag records
whether the previous character was an (already emitted) underscore. -/
def collapseUndSt (prevUnd : Bool) : List Char → List Char
  | [] => []
  | c :: r =>
    if c == '_' then
      if prevUnd then collapseUndSt true r else '_' :: collapseUndSt true r
    else c :: collapseUndSt false r

/-- `re.sub(r"_+", "_", s)`. -/
def collapseUnd (l : List Char) : List Char := collapseUndSt false l

/-- The untruncated tool name built by `normalize_tool_name` from the method
`m` and path `p0` (both as character lists) and the configured name prefix:
steps 1-5 of the algorithm, before the length cap. -/
def rawToolName (m p0 : List Char) (pre : String) : String :=
  let p1 := subApiPre p0
  let p2 := rstripP (fun c => c == '/') (lstripP (fun c => c == '/') p1)
  let p3 := if p2.isEmpty then "root".toList else p2
  let parts := ((splitChar '/' p3).map procPart).filter (fun q => !q.isEmpty)
  let tn := m.map Char.toLower ++ '_' :: joinUnd parts
  let tn2 := stripP (fun c => c == '_') (collapseUnd tn)
  String.mk (pre.toList ++ tn2)

/-- The effective length limit: a custom cap below the protocol cap of 64
wins, otherwise 64 (`final_limit` in the source). -/
def effLimit (cap : Option Int) : Int :=
  match cap with
  | some m => if m < 64 then m else 64
  | none => 64

/-- `normalize_tool_name(raw_name, max_length)` with the `TOOL_NAME_PREFIX`
configuration passed explicitly: malformed input without a space yields the
sentinel `unknown_tool`; otherwise the name is derived by `rawToolName` and
truncated to the effective limit when longer. -/
def normalize_tool_name (raw : String) (cap : Option Int) (pre : String) : String :=
  match splitSp raw.toList with
  | none => "unknown_tool"
  | some mp =>
    let nm := rawToolName mp.1 mp.2 pre
    let lim := effLimit cap
    if (nm.length : Int) > lim then String.mk (pyTakeInt lim nm.toList) else nm

/-- A character allowed by the protocol tool-name pattern `[A-Za-z0-9_-]`. -/
def goodChar (c : Char) : Bool := c.isAlphanum || c == '_' || c == '-'

/-- The protocol tool-name pattern `TOOL_NAME_REGEX`:
one to 64 characters, all from `[A-Za-z0-9_-]`. -/
def toolNameOk (s : String) : Bool :=
  decide (1 ≤ s.length) && decide (s.length ≤ 64) && s.toList.all goodChar

/-- A path character handled by the name normalizer outside placeholders:
alphanumeric or one of `.`, `-`, `+`, `_`. -/
def baseOk (c : Char) : Bool :=
  c.isAlphanum || c == '.' || c == '-' || c == '+' || c == '_'

/-- Scanner for well-formed paths over the handled character set: state 0 is
outside a placeholder (slashes allowed), state 1 is immediately after an
opening brace (at least one name character required), state 2 is inside a
placeholder name. Returns the final state, or `none` on an unhandled
character. -/
def scanSt : Nat → List Char → Option Nat
  | st, [] => some st
  | 0, c :: r =>
    if c == '/' then scanSt 0 r
    else if c == lbrace then scanSt 1 r
    else if baseOk c then scanSt 0 r else none
  | 1, c :: r => if baseOk c then scanSt 2 r else none
  | 2, c :: r =>
    if c == rbrace then scanSt 0 r
    else if baseOk c then scanSt 2 r else none
  | _ + 3, _ :: _ => none

/-- A path made of handled characters with well-formed `\x7bname\x7d`
placeholders (nonempty names of handled characters, no nesting). -/
def pathCharsOk (l : List Char) : Bool := scanSt 0 l == some 0

/-- `"/" + endpoint.strip("/")`: the normal form both endpoints and whitelist
entries are put into by `is_tool_whitelisted`. -/
def normEp (s : String) : String :=
  "/" ++ String.mk (stripP (fun c => c == '/') s.toList)

/-- A token of the compiled whitelist pattern: a literal character (regex
metacharacters are escaped by `re.escape`, so they match themselves), or a
placeholder compiled to the single-segment wildcard `([^/]+)`. -/
inductive PTok where
  | lit : Char → PTok
  | seg : PTok
  deriving DecidableEq, Repr

/-- Fueled tokenizer of a whitelist entry: every `\x7bname\x7d` placeholder
(nonempty name, found by the same scan as `re.sub(r"\x7b[^\x7d]+\x7d", ...)`)
becomes a `seg` wildcard token, every other character a literal token. -/
def toksF : Nat → List Char → List PTok
  | _, [] => []
  | 0, l => l.map PTok.lit
  | f + 1, c :: rest =>
    if c == lbrace then
      match splitClose rest with
      | some (inner, tail) =>
        if inner.isEmpty then PTok.lit c :: toksF f rest
        else PTok.seg :: toksF f tail
      | none => PTok.lit c :: toksF f rest
    else PTok.lit c :: toksF f rest

/-- Tokenizer with enough fuel. -/
def toksOf (l : List Char) : List PTok := toksF l.length l

/-- Backtracking matcher for the compiled pattern
`"^" + tokens + "($|/.*)"`: literals must match exactly, a `seg` token
consumes one or more non-slash characters (with backtracking, as the regex
`([^/]+)` does), and after all tokens the remaining text must be empty or
start with a slash. -/
def matchToks : List PTok → List Char → Bool
  | [], [] => true
  | [], c :: _ => c == '/'
  | PTok.lit _ :: _, [] => false
  | PTok.lit p :: ts, c :: cs => p == c && matchToks ts cs
  | PTok.seg :: _, [] => false
  | PTok.seg :: ts, c :: cs =>
    c != '/' && (matchToks ts cs || matchToks (PTok.seg :: ts) cs)

/-- `is_tool_whitelisted(endpoint)` with the `TOOL_WHITELIST` value passed
explicitly: allows everything when the whitelist is unset/blank; otherwise
splits it on commas, normalizes both sides with `normEp`, and matches each
entry either as a compiled placeholder pattern (when it contains both an
opening and a closing brace) or as an exact-or-segment-boundary literal
path. Backslashes in entries are modelled as matching themselves
(`re.escape` makes every literal character match itself). -/
def is_tool_whitelisted (endpoint : String) (wl : String) : Bool :=
  let wlStr := stripWSs wl
  if wlStr == "" then true
  else
    let entries := ((splitChar ',' wlStr.toList).map stripWS).filter (fun e => !e.isEmpty)
    let ne := (normEp endpoint).toList
    entries.any (fun entry =>
      let nent := (normEp (String.mk entry)).toList
      if nent.contains lbrace && nent.contains rbrace then
        matchToks (toksOf nent) ne
      else
        leadsL nent ne && (ne == nent || leadsL (nent ++ ['/']) ne))

/-- Declarative matching relation for a compiled whitelist pattern: a `lit`
token matches its own character, a `seg` token matches one nonempty run of
non-slash characters, and after the full token sequence the rest of the path
is empty or starts with `/`. -/
inductive TMatch : List PTok → List Char → Prop where
  | done : TMatch [] []
  | tail (r : List Char) : TMatch [] ('/' :: r)
  | lit (c : Char) (ts : List PTok) (xs : List Char) :
      TMatch ts xs → TMatch (PTok.lit c :: ts) (c :: xs)
  | seg (v rest : List Char) (ts : List PTok) :
      v ≠ [] → (∀ c ∈ v, c ≠ '/') → TMatch ts rest →
      TMatch (PTok.seg :: ts) (v ++ rest)

/-- An OpenAPI `parameter` object: name, location (`in`) and `required`. -/
structure Param where
  name : String
  loc : Option String := none
  required : Bool := false
  deriving DecidableEq, Repr

/-- An OpenAPI operation (one HTTP method under a path item); `params` is
`none` when the `parameters` key is absent. Only the fields the verified
claims depend on are modelled. -/
structure Operation where
  params : Option (List Param) := none
  deriving DecidableEq, Repr

/-- An OpenAPI path item: its method-keyed operation entries in document
order, and the optional path-level `parameters` list. -/
structure PathItem where
  ops : List (String × Operation) := []
  itemParams : Option (List Param) := none
  deriving DecidableEq, Repr

/-- One entry of an OpenAPI `servers` array. -/
structure OAServer where
  url : Option String := none
  deriving DecidableEq, Repr

/-- The parsed OpenAPI document; every field is `none` when the key is
absent. `paths` preserves document order. -/
structure OASpec where
  paths : Option (List (String × PathItem)) := none
  servers : Option (List OAServer) := none
  host : Option String := none
  schemes : Option (List String) := none
  basePath : Option String := none
  deriving DecidableEq, Repr

/-- The environment configuration read by the engine. `toolNameMaxLen` is
the parsed `TOOL_NAME_MAX_LENGTH` (the environment parser only accepts
positive integers); `apiAuthType` is `API_AUTH_TYPE` lower-cased (default
`Bearer`); `extraHeaders` is the parsed `EXTRA_HEADERS` list. -/
structure Config where
  toolWhitelist : String := ""
  toolNamePre : String := ""
  toolNameMaxLen : Option Int := none
  stripParam : Option String := none
  serverUrlOverride : Option String := none
  apiKey : Option String := none
  apiAuthType : String := "bearer"
  apiAuthHeader : String := "Authorization"
  extraHeaders : List (String × String) := []
  deriving DecidableEq, Repr

/-- `normalize_tool_name` under a configuration. -/
def normalizeCfg (raw : String) (cfg : Config) : String :=
  normalize_tool_name raw cfg.toolNameMaxLen cfg.toolNamePre

/-- The HTTP verbs accepted by `openapi.register_functions` and
`openapi.lookup_operation_details`. -/
def verbs8 : List String :=
  ["get", "post", "put", "delete", "patch", "options", "head", "trace"]

/-- The HTTP verbs accepted by the `server_lowlevel`/`server_fastmcp`
registration and lookup loops. -/
def verbs5 : List String := ["get", "post", "put", "delete", "patch"]

/-- The `(path, method, operation)` triples visited by the nested
`for path ... for method ...` loops, in document order, keeping only
entries whose key is an accepted HTTP verb. -/
def specOccs (verbs : List String) (ps : List (String × PathItem)) :
    List (String × String × Operation) :=
  ps.flatMap (fun pit =>
    pit.2.ops.filterMap (fun mo =>
      if verbs.contains (pyLower mo.1) then some (pit.1, mo.1, mo.2) else none))

/-- A registered tool, together with the `(path, method)` pair its name was
derived from at registration time (the registration provenance; the source
`types.Tool` stores only name, description and input schema). -/
structure RegTool where
  name : String
  path : String
  method : String
  deriving DecidableEq, Repr

/-- The registration loop of `openapi.register_functions`: derive the name,
skip it when it fails the protocol pattern, skip it when already
registered, otherwise register it and remember it. -/
def regLoop (cfg : Config) : List (String × String × Operation) → List String → List RegTool
  | [], _ => []
  | occ :: rest, seen =>
    let nm := normalizeCfg (pyUpper occ.2.1 ++ " " ++ occ.1) cfg
    if !toolNameOk nm then regLoop cfg rest seen
    else if seen.contains nm then regLoop cfg rest seen
    else ⟨nm, occ.1, pyUpper occ.2.1⟩ :: regLoop cfg rest (nm :: seen)

/-- The whitelist-filtered paths dictionary built before registration. -/
def whitelistedPaths (spec : OASpec) (cfg : Config) : List (String × PathItem) :=
  (spec.paths.getD []).filter (fun p => is_tool_whitelisted p.1 cfg.toolWhitelist)

/-- `openapi.register_functions(spec)`: filter paths by the whitelist, then
register every operation whose derived name is pattern-valid and not yet
taken. An absent `paths` key yields the empty registry. -/
def register_functions (spec : OASpec) (cfg : Config) : List RegTool :=
  regLoop cfg (specOccs verbs8 (whitelistedPaths spec cfg)) []

/-- `server_lowlevel.register_functions(spec)`: filter paths by the
whitelist and register every operation's derived name, with no pattern
validation and no duplicate check. Only the registered names are modelled. -/
def register_functions_ll (spec : OASpec) (cfg : Config) : List String :=
  (specOccs verbs5 (whitelistedPaths spec cfg)).map
    (fun occ => normalizeCfg (pyUpper occ.2.1 ++ " " ++ occ.1) cfg)

/-- The per-occurrence test of `openapi.lookup_operation_details`: re-derive
the name, require it to match the protocol pattern, and compare it with the
requested name. -/
def nameMatch (cfg : Config) (fname : String) (occ : String × String × Operation) : Bool :=
  let nm := normalizeCfg (pyUpper occ.2.1 ++ " " ++ occ.1) cfg
  toolNameOk nm && nm == fname

/-- `openapi.lookup_operation_details(function_name, spec)`: re-derive the
name of every operation of the (unfiltered) spec in document order, skip
names that fail the protocol pattern, and return the
`(path, upper-cased method, operation)` of the first match. -/
def lookup_operation_details (fname : String) (spec : OASpec) (cfg : Config) :
    Option (String × String × Operation) :=
  match spec.paths with
  | none => none
  | some ps =>
    ((specOccs verbs8 ps).find? (nameMatch cfg fname)).map
      (fun occ => (occ.1, pyUpper occ.2.1, occ.2.2))

/-- `server_lowlevel.lookup_operation_details(function_name, spec)`: like the
`openapi` version but over the five-verb list and with no pattern check. -/
def lookup_ll (fname : String) (spec : OASpec) (cfg : Config) :
    Option (String × String × Operation) :=
  match spec.paths with
  | none => none
  | some ps =>
    ((specOccs verbs5 ps).find? (fun occ =>
        normalizeCfg (pyUpper occ.2.1 ++ " " ++ occ.1) cfg == fname)).map
      (fun occ => (occ.1, pyUpper occ.2.1, occ.2.2))

/-- Lookup in a Python dict (association list with unique keys). -/
def dget (d : List (String × String)) (k : String) : Option String :=
  (d.find? (fun kv => kv.1 == k)).map (fun kv => kv.2)

/-- Python `d[k] = v`: overwrite in place, else append. -/
def dset (d : List (String × String)) (k v : String) : List (String × String) :=
  if (d.find? (fun kv => kv.1 == k)).isSome then
    d.map (fun kv => if kv.1 == k then (k, v) else kv)
  else d ++ [(k, v)]

/-- Python `{**a, **b}`. -/
def dmerge (a b : List (String × String)) : List (String × String) :=
  b.foldl (fun acc kv => dset acc kv.1 kv.2) a

/-- Python `del d[k]` / `d.pop(k, None)` (no-op when absent). -/
def ddel (d : List (String × String)) (k : String) : List (String × String) :=
  d.filter (fun kv => kv.1 != k)

/-- `handle_auth(operation)`: build auth headers from `API_KEY`,
`API_AUTH_TYPE` and `API_AUTH_HEADER` (the operation itself is unused by
the source beyond a TODO). -/
def handle_auth (cfg : Config) : List (String × String) :=
  match cfg.apiKey with
  | none => []
  | some k =>
    if k == "" then []
    else if cfg.apiAuthType == "bearer" then [("Authorization", "Bearer " ++ k)]
    else if cfg.apiAuthType == "basic" then []
    else if cfg.apiAuthType == "api-key" then [(cfg.apiAuthHeader, k)]
    else []

/-- `strip_parameters(parameters)`: remove the `STRIP_PARAM` key, if set. -/
def strip_parameters (cfg : Config) (ps : List (String × String)) :
    List (String × String) :=
  match cfg.stripParam with
  | none => ps
  | some sp => if sp == "" then ps else ddel ps sp

/-- The `SERVER_URL_OVERRIDE` scan: first comma-separated candidate that
starts with `http://` or `https://`. -/
def pickOverride (ov : String) : Option String :=
  (((splitChar ',' ov.toList).map stripWS).map String.mk).find?
    (fun u => leadsS "http://" u || leadsS "https://" u)

/-- The spec-derived part of `build_base_url`: `servers[0].url` when present
and truthy, else the Swagger-2 `scheme://host + basePath` when both `host`
and `schemes` keys exist and `host` is truthy. -/
def baseFromSpec (spec : OASpec) : Option String :=
  let fromServers :=
    match spec.servers with
    | some (s0 :: _) =>
      match s0.url with
      | some u => if u != "" then some u else none
      | none => none
    | _ => none
  match fromServers with
  | some u => some u
  | none =>
    if spec.host.isSome && spec.schemes.isSome then
      match spec.host with
      | some h =>
        if h != "" then
          let scheme := match spec.schemes with | some (sc :: _) => sc | _ => "https"
          some (scheme ++ "://" ++ h ++ spec.basePath.getD "")
        else none
      | none => none
    else none

/-- `build_base_url(spec)`: a truthy `SERVER_URL_OVERRIDE` wins (and an
override with no syntactically valid candidate is a hard failure), else the
spec is consulted. -/
def build_base_url (spec : OASpec) (cfg : Config) : Option String :=
  match cfg.serverUrlOverride with
  | some ov => if ov != "" then pickOverride ov else baseFromSpec spec
  | none => baseFromSpec spec

/-- Failure of Python `str.format(**params)` on a path template: a missing
key (`KeyError`, carrying the first missing field name) or a malformed
template (stray or empty braces, raising `ValueError`/`IndexError`). Format
specifications (`\x7bname:spec\x7d`) are not modelled. -/
inductive FmtErr where
  | missing : String → FmtErr
  | malformed : FmtErr
  deriving DecidableEq, Repr

/-- Fueled model of `path.format(**params)`: substitute every
`\x7bname\x7d` field left to right, failing with the first missing name. -/
def formatF (ps : List (String × String)) : Nat → List Char → Except FmtErr (List Char)
  | _, [] => Except.ok []
  | 0, _ => Except.error FmtErr.malformed
  | f + 1, c :: rest =>
    if c == lbrace then
      match splitClose rest with
      | some (inner, tail) =>
        if inner.isEmpty then Except.error FmtErr.malformed
        else
          match dget ps (String.mk inner) with
          | some v => (formatF ps f tail).map (fun r => v.toList ++ r)
          | none => Except.error (FmtErr.missing (String.mk inner))
      | none => Except.error FmtErr.malformed
    else if c == rbrace then Except.error FmtErr.malformed
    else (formatF ps f rest).map (fun r => c :: r)

/-- `path.format(**params)` with enough fuel. -/
def formatPath (tpl : List Char) (ps : List (String × String)) :
    Except FmtErr (List Char) :=
  formatF ps tpl.length tpl

/-- The placeholder keys popped after a GET substitution:
`[seg.strip("\x7b\x7d") for seg in path.split("/") if seg.startswith("\x7b")
and seg.endswith("\x7d")]` — only whole-segment placeholders qualify. -/
def wholeSegKeys (path : String) : List String :=
  ((splitChar '/' path.toList).filter
      (fun seg => leadsL [lbrace] seg && endsL [rbrace] seg)).map
    (fun seg => String.mk (stripP (fun c => c == lbrace || c == rbrace) seg))

/-- The HTTP request handed to `requests.request` by a dispatcher. -/
structure BuiltRequest where
  url : String
  method : String
  headers : List (String × String)
  query : List (String × String)
  body : Option (List (String × String))
  deriving DecidableEq, Repr

/-- A `CallToolResult`, reduced to the text of its single `TextContent`
and the `isError` flag. -/
structure CallToolResult where
  content : String
  isError : Bool
  deriving DecidableEq, Repr

/-- The observable outcome of one low-level dispatch: the HTTP request
issued (when one was) and the returned result. -/
structure LLOut where
  req : Option BuiltRequest
  result : CallToolResult
  deriving DecidableEq, Repr

/-- An MCP `TextContent` (the `type` discriminator is always `"text"`). -/
structure TextContent where
  text : String
  deriving DecidableEq, Repr

/-- A parsed JSON value (`json.loads` result). Numbers are modelled as
integers; float formatting is irrelevant to the verified claims. -/
inductive JVal where
  | null : JVal
  | bool : Bool → JVal
  | num : Int → JVal
  | str : String → JVal
  | arr : List JVal → JVal
  | obj : List (String × JVal) → JVal
  deriving Repr

/-- Lookup in a JSON object (`dict.get`). -/
def jLookup (fields : List (String × JVal)) (k : String) : Option JVal :=
  (fields.find? (fun kv => kv.1 == k)).map (fun kv => kv.2)

/-- The string escaping of `json.dumps` (quotes and backslashes; control and
non-ASCII escapes are not modelled). -/
def jEscape (s : String) : String :=
  String.mk (s.toList.flatMap (fun c =>
    if c == '\\' then ['\\', '\\']
    else if c == '"' then ['\\', '"']
    else [c]))

mutual
/-- `json.dumps` with its default separators. -/
def jDumps : JVal → String
  | JVal.null => "null"
  | JVal.bool b => if b then "true" else "false"
  | JVal.num n => toString n
  | JVal.str s => "\"" ++ jEscape s ++ "\""
  | JVal.arr l => "[" ++ jDumpsList l ++ "]"
  | JVal.obj fs => "\x7b" ++ jDumpsFields fs ++ "\x7d"

/-- Comma-joined dump of an array's elements. -/
def jDumpsList : List JVal → String
  | [] => ""
  | [x] => jDumps x
  | x :: y :: rest => jDumps x ++ ", " ++ jDumpsList (y :: rest)

/-- Comma-joined dump of an object's fields. -/
def jDumpsFields : List (String × JVal) → String
  | [] => ""
  | [kv] => "\"" ++ jEscape kv.1 ++ "\": " ++ jDumps kv.2
  | kv :: kv2 :: rest =>
    "\"" ++ jEscape kv.1 ++ "\": " ++ jDumps kv.2 ++ ", " ++ jDumpsFields (kv2 :: rest)
end

/-- The Python `json.dumps({"error": msg})` strings returned by
`call_function`. -/
def jsonErrStr (msg : String) : String :=
  "\x7b\"error\": \"" ++ jEscape msg ++ "\"\x7d"

/-- The shape test of `detect_response_type`: a JSON object with
`"type": "text"` and a `"text"` key. -/
def isTCShape (j : JVal) : Bool :=
  match j with
  | JVal.obj fields =>
    (match jLookup fields "type" with
     | some (JVal.str t) => t == "text"
     | _ => false) && (jLookup fields "text").isSome
  | _ => false

/-- Pydantic validation of `TextContent(**decoded)`: succeeds when the
`text` field holds a string (extra keys are ignored; `type` was already
checked to be `"text"` by the shape test). -/
def tcValidate (j : JVal) : Option TextContent :=
  match j with
  | JVal.obj fields =>
    match jLookup fields "text" with
    | some (JVal.str s) => some ⟨s⟩
    | _ => none
  | _ => none

/-- `detect_response_type(response_text)`: the `json.loads` outcome is the
oracle `parsed`. A body that parses to a validating `TextContent` object is
passed through; any other parsable body is re-serialized and tagged as a
JSON response; an unparsable body is returned as whitespace-stripped plain
text. -/
def detect_response_type (parsed : Option JVal) (txt : String) : TextContent × String :=
  match parsed with
  | none => (⟨stripWSs txt⟩, "Non-JSON text response")
  | some j =>
    if isTCShape j then
      match tcValidate j with
      | some tc => (tc, "Passthrough TextContent response")
      | none => (⟨jDumps j⟩, "JSON response (stringified)")
    else (⟨jDumps j⟩, "JSON response (stringified)")

/-- `server_lowlevel.dispatcher_handler(request)`: the full per-invocation
pipeline. `toolNames` is the registered tool list, `specData` the module
state `openapi_spec_data`, `httpResult` the oracle outcome of
`requests.request` (`error` = a raised `RequestException`, also covering
`raise_for_status`), and `parsedResp` the oracle `json.loads` of the
response text. The `handlers.dispatcher_handler` variant differs only in
using the eight-verb lookup. -/
def dispatcher_handler (cfg : Config) (toolNames : List String)
    (specData : Option OASpec) (fname : String)
    (args : List (String × String)) (httpResult : Except String String)
    (parsedResp : Option JVal) : LLOut :=
  if !(toolNames.contains fname) then
    ⟨none, ⟨"Unknown function requested", false⟩⟩
  else
    match specData with
    | none => ⟨none, ⟨"OpenAPI spec not loaded", true⟩⟩
    | some spec =>
      match lookup_ll fname spec cfg with
      | none => ⟨none, ⟨"Could not find OpenAPI operation for function: " ++ fname, false⟩⟩
      | some od =>
        let path0 := od.1
        let method := od.2.1
        let op := od.2.2
        let headers0 := dmerge (handle_auth cfg) cfg.extraHeaders
        let params0 := strip_parameters cfg args
        let headers :=
          if method != "GET" then dset headers0 "Content-Type" "application/json"
          else headers0
        match formatPath path0.toList params0 with
        | Except.error (FmtErr.missing p) =>
          ⟨none, ⟨"Missing parameter: " ++ pyRepr p, false⟩⟩
        | Except.error FmtErr.malformed =>
          ⟨none, ⟨"Internal error: malformed path template", false⟩⟩
        | Except.ok pathSub =>
          let params1 :=
            if method == "GET" then
              (wholeSegKeys path0).foldl (fun acc k => ddel acc k) params0
            else params0
          match build_base_url spec cfg with
          | none => ⟨none, ⟨"No base URL defined in spec or SERVER_URL_OVERRIDE", false⟩⟩
          | some base =>
            let apiUrl := String.mk (rstripP (fun c => c == '/') base.toList)
              ++ "/" ++ String.mk (lstripP (fun c => c == '/') pathSub)
            let pathItem := ((spec.paths.getD []).find? (fun p => p.1 == path0)).map
              (fun p => p.2)
            let merged :=
              (match pathItem with
               | some it => it.itemParams.getD []
               | none => []) ++ op.params.getD []
            let pathParams := merged.filter (fun p => p.loc == some "path")
            let missing :=
              if !pathParams.isEmpty then
                (pathParams.filter
                    (fun p => p.required && (dget args p.name).isNone)).map
                  (fun p => p.name)
              else []
            if !missing.isEmpty then
              ⟨none, ⟨"Missing required path parameters: " ++ pyReprList missing, false⟩⟩
            else
              let qb : List (String × String) × Option (List (String × String)) :=
                if method == "GET" then (params1, none) else ([], some params1)
              let req : BuiltRequest := ⟨apiUrl, method, headers, qb.1, qb.2⟩
              match httpResult with
              | Except.error e => ⟨some req, ⟨e, false⟩⟩
              | Except.ok t =>
                let rt := stripWSs (if t == "" then "No response body" else t)
                let ct := detect_response_type parsedResp rt
                ⟨some req, ⟨ct.1.text, false⟩⟩

/-- Fueled Python `str.replace(pat, repl)`: replace every non-overlapping
occurrence, scanning left to right. -/
def replF (pat repl : List Char) : Nat → List Char → List Char
  | _, [] => []
  | 0, l => l
  | f + 1, c :: rest =>
    if !pat.isEmpty && leadsL pat (c :: rest) then
      repl ++ replF pat repl f ((c :: rest).drop pat.length)
    else c :: replF pat repl f rest

/-- `str.replace` with enough fuel. -/
def replAll (pat repl l : List Char) : List Char := replF pat repl l.length l

/-- The substitution loop of `call_function`: for each argument in dict
order whose `\x7bname\x7d` placeholder occurs in the (progressively
substituted) path, replace it with the value and mark the key for removal.
Returns the final path and the keys to remove. -/
def substLoop : List Char → List (String × String) → List Char × List String
  | path, [] => (path, [])
  | path, kv :: rest =>
    let pat := lbrace :: kv.1.toList ++ [rbrace]
    if hasSub pat path then
      let path2 := replAll pat kv.2.toList path
      let r := substLoop path2 rest
      (r.1, kv.1 :: r.2)
    else substLoop path rest

/-- The looked-up function definition `call_function` dispatches on. -/
structure FunctionDef where
  path : String
  method : String
  op : Operation
  deriving DecidableEq, Repr

/-- The observable outcome of `call_function`: the HTTP request issued (when
one was) and the returned string. -/
structure FastOut where
  req : Option BuiltRequest
  retval : String
  deriving DecidableEq, Repr

/-- `server_fastmcp.call_function` from the point where the function
definition has been resolved (the name lookup re-derives names over the
five-verb occurrences exactly as `lookup_ll` does; the built-in
resource/prompt names and the `get_file_report` test stub are outside the
modelled scope): auth and extra headers, `STRIP_PARAM`, a `Content-Type`
header for non-GET, the whitelist re-check, base-URL resolution, the
all-missing-path-parameters validation, placeholder substitution with
removal of consumed keys, the `stream` flag removal, GET/non-GET
partitioning, and the HTTP call. -/
def call_function (cfg : Config) (spec : OASpec) (fname : String)
    (fd : FunctionDef) (args : List (String × String))
    (httpResult : Except String String) : FastOut :=
  let headers0 := dmerge (handle_auth cfg) cfg.extraHeaders
  let params0 := strip_parameters cfg args
  let headers :=
    if fd.method != "GET" then dset headers0 "Content-Type" "application/json"
    else headers0
  if !(is_tool_whitelisted fd.path cfg.toolWhitelist) then
    ⟨none, jsonErrStr ("Access to function " ++ pyRepr fname ++ " is not allowed")⟩
  else
    match build_base_url spec cfg with
    | none => ⟨none, jsonErrStr "No base URL defined in spec or SERVER_URL_OVERRIDE"⟩
    | some base =>
      let opParams := fd.op.params.getD []
      let pathParamNames := (opParams.filter (fun p => p.loc == some "path")).map
        (fun p => p.name)
      let missing :=
        if !pathParamNames.isEmpty then
          (opParams.filter
              (fun p => p.loc == some "path" && p.required
                && (dget params0 p.name).isNone)).map
            (fun p => p.name)
        else []
      if !missing.isEmpty then
        ⟨none, jsonErrStr ("Missing required path parameters: " ++ pyReprList missing)⟩
      else
        let pr :=
          if fd.path.toList.contains lbrace && fd.path.toList.contains rbrace then
            substLoop fd.path.toList params0
          else (fd.path.toList, [])
        let params1 := params0.filter (fun kv => !pr.2.contains kv.1)
        let apiUrl := String.mk (rstripP (fun c => c == '/') base.toList)
          ++ "/" ++ String.mk (lstripP (fun c => c == '/') pr.1)
        let params2 :=
          match dget params1 "stream" with
          | some v => if v != "" then ddel params1 "stream" else params1
          | none => params1
        let qb : List (String × String) × Option (List (String × String)) :=
          if fd.method == "GET" then (params2, none) else ([], some params2)
        let req : BuiltRequest := ⟨apiUrl, fd.method, headers, qb.1, qb.2⟩
        match httpResult with
        | Except.error e => ⟨some req, jsonErrStr ("API request failed: " ++ e)⟩
        | Except.ok t => ⟨some req, t⟩

/-- The read-only/idempotent HTTP methods, as the specification's
*PartitionParams* sentence reads (this definition follows the claim's words,
for comparison with the source behaviour, which partitions on GET alone). -/
def specReadOnlyIdempotent (method : String) : Bool :=
  ["GET", "HEAD", "OPTIONS", "PUT", "DELETE"].contains method

/-! Supporting lemmas. -/

theorem leadsL_length : ∀ (pat l : List Char), leadsL pat l = true → pat.length ≤ l.length := by
  intro pat
  induction pat with
  | nil => intro l _; simp
  | cons p ps ih =>
    intro l h
    cases l with
    | nil => simp [leadsL] at h
    | cons c cs =>
      simp only [leadsL, Bool.and_eq_true] at h
      have := ih cs h.2
      simp only [List.length_cons]
      omega

theorem stripKey_len {l l2 : List Char} (h : stripKey l = some l2) :
    4 ≤ l.length ∧ l2.length + 4 ≤ l.length := by
  unfold stripKey at h
  repeat' split at h
  all_goals simp only [Option.some.injEq, reduceCtorEq] at h
  all_goals subst h
  all_goals rename_i hl
  all_goals (have hp := leadsL_length _ _ hl; simp only [List.length_cons, List.length_nil] at hp;
             simp only [List.length_drop]; omega)

theorem subApiF_congr : ∀ (f g : Nat) (l : List Char),
    l.length ≤ f → l.length ≤ g → subApiF f l = subApiF g l := by
  intro f
  induction f with
  | zero =>
    intro g l hf _
    have : l = [] := by cases l with | nil => rfl | cons c r => simp at hf
    subst this
    cases g <;> rfl
  | succ f ih =>
    intro g l hf hg
    cases l with
    | nil => cases g <;> rfl
    | cons c rest =>
      cases g with
      | zero => simp at hg
      | succ g =>
        simp only [subApiF]
        cases hsk : stripKey (c :: rest) with
        | none =>
          have h1 : rest.length ≤ f := by simp at hf; omega
          have h2 : rest.length ≤ g := by simp at hg; omega
          simp [ih g rest h1 h2]
        | some l2 =>
          have hlen := stripKey_len hsk
          simp only [List.length_cons] at hlen
          have h1 : l2.length ≤ f := by simp at hf; omega
          have h2 : l2.length ≤ g := by simp at hg; omega
          simp [ih g l2 h1 h2]

theorem subApiPre_cons (c : Char) (rest : List Char) :
    subApiPre (c :: rest) =
      (match stripKey (c :: rest) with
       | some l2 => '/' :: subApiPre l2
       | none => c :: subApiPre rest) := by
  show subApiF (rest.length + 1) (c :: rest) = _
  simp only [subApiF]
  cases hsk : stripKey (c :: rest) with
  | none => rfl
  | some l2 =>
    have hlen := stripKey_len hsk
    simp only [List.length_cons] at hlen
    simp [subApiF_congr rest.length l2.length l2 (by omega) (by omega), subApiPre]

theorem splitClose_len {l inner tail : List Char}
    (h : splitClose l = some (inner, tail)) : tail.length < l.length := by
  induction l generalizing inner tail with
  | nil => simp [splitClose] at h
  | cons c rest ih =>
    simp only [splitClose] at h
    by_cases hc : c == rbrace
    · simp only [hc, if_true, Option.some.injEq, Prod.mk.injEq] at h
      obtain ⟨_, h2⟩ := h
      subst h2
      simp only [List.length_cons]
      omega
    · simp only [hc, if_false] at h
      cases hsp : splitClose rest with
      | none => rw [hsp] at h; simp at h
      | some p =>
        obtain ⟨i0, t0⟩ := p
        rw [hsp] at h
        simp at h
        have := ih hsp
        have h2 : t0 = tail := h.2
        subst h2
        simp only [List.length_cons]
        omega

theorem braceScanF_congr : ∀ (f g : Nat) (l : List Char),
    l.length ≤ f → l.length ≤ g → braceScanF f l = braceScanF g l := by
  intro f
  induction f with
  | zero =>
    intro g l hf _
    have : l = [] := by
      cases l with
      | nil => rfl
      | cons c r => simp at hf
    subst this
    cases g <;> rfl
  | succ f ih =>
    intro g l hf hg
    cases l with
    | nil => cases g <;> rfl
    | cons c rest =>
      cases g with
      | zero => simp at hg
      | succ g =>
        simp only [braceScanF]
        have hrest : rest.length ≤ f := by simp at hf; omega
        have hrestg : rest.length ≤ g := by simp at hg; omega
        by_cases hc : c == lbrace
        · simp only [hc]
          cases hsp : splitClose rest with
          | none => simp [ih g rest hrest hrestg]
          | some p =>
            obtain ⟨inner, tail⟩ := p
            have htail : tail.length < rest.length + 1 := by
              have := splitClose_len hsp
              omega
            by_cases hi : inner.isEmpty
            · simp [hi, ih g rest hrest hrestg]
            · simp [hi, ih g tail (by omega) (by omega)]
        · simp [hc, ih g rest hrest hrestg]

theorem braceScanL_cons (c : Char) (rest : List Char) :
    braceScanL (c :: rest) =
      (if c == lbrace then
        match splitClose rest with
        | some (inner, tail) =>
          if inner.isEmpty then
            ((c :: (braceScanL rest).1, (braceScanL rest).2))
          else
            (((braceScanL tail).1, inner :: (braceScanL tail).2))
        | none => ((c :: (braceScanL rest).1, (braceScanL rest).2))
      else ((c :: (braceScanL rest).1, (braceScanL rest).2))) := by
  show braceScanF (rest.length + 1) (c :: rest) = _
  simp only [braceScanF, braceScanL]
  by_cases hc : c == lbrace
  · simp only [hc, if_true]
    cases hsp : splitClose rest with
    | none => simp
    | some p =>
      obtain ⟨inner, tail⟩ := p
      have htail := splitClose_len hsp
      by_cases hi : inner.isEmpty
      · simp [hi]
      · simp only [hi, if_false]
        rw [braceScanF_congr rest.length tail.length tail (by omega) (by omega)]
  · simp [hc]

example : normalize_tool_name "GET /pets/{id}" none "" = "get_pets_by_id" := by decide
example : normalize_tool_name "GET /users/{user_id}/tasks" none "" = "get_users_by_user_id_tasks" := by decide
example : normalize_tool_name "GET /api/x" none "" = "get_x" := by decide
example : normalize_tool_name "nospace" none "" = "unknown_tool" := by decide
example : normalize_tool_name "GET /a.b-c+d" none "" = "get_a_b_c_d" := by decide
example : normalize_tool_name "GET /" none "" = "get_root" := by decide
example : normalize_tool_name "POST /users/{user_id}/tasks" none "" = "post_users_by_user_id_tasks" := by decide

/-! Claim C9 and claim C10, and the concrete counterexamples of the
corrected claims. -/

/-- C9: every error result produced inside the low-level tool dispatcher —
unknown tool name, unresolvable operation, missing path parameter, missing
base URL, HTTP-request failure — carries `isError = false`, the error being
conveyed only in the text content; the single exception is the
"OpenAPI spec not loaded" case, which returns `isError = true`. Stated as:
the flag is true exactly when the tool is registered but the module spec
state is `None`. -/
theorem C9_isError_iff_spec_not_loaded (cfg : Config) (toolNames : List String)
    (specData : Option OASpec) (fname : String) (args : List (String × String))
    (httpResult : Except String String) (parsedResp : Option JVal) :
    (dispatcher_handler cfg toolNames specData fname args httpResult parsedResp).result.isError = true
      ↔ (toolNames.contains fname = true ∧ specData = none) := by
  unfold dispatcher_handler
  by_cases ht : toolNames.contains fname = true
  · simp only [ht, Bool.not_true, Bool.false_eq_true, if_false, true_and]
    cases specData with
    | none => simp
    | some spec =>
      simp only [reduceCtorEq, iff_false]
      repeat' split
      all_goals simp
  · have hf : toolNames.contains fname = false := by
      revert ht; cases toolNames.contains fname <;> simp
    have hmem : fname ∉ toolNames := by simpa using hf
    simp [hf, hmem]

/-- C10: response classification is a three-way branch, always returning a
`TextContent`: an unparsable body is whitespace-trimmed plain text; a JSON
body of the shape `(type := "text", text := string)` that validates as
`TextContent` is passed through verbatim; every other JSON-parsable body
(including a TextContent-shaped object whose validation fails) is returned
as stringified JSON tagged as a JSON response. -/
theorem C10_detect_response_classification (txt : String) (j : JVal)
    (fields : List (String × JVal)) (s : String) :
    (detect_response_type none txt = (⟨stripWSs txt⟩, "Non-JSON text response"))
    ∧ (jLookup fields "type" = some (JVal.str "text") →
        jLookup fields "text" = some (JVal.str s) →
        detect_response_type (some (JVal.obj fields)) txt =
          (⟨s⟩, "Passthrough TextContent response"))
    ∧ (isTCShape j = false →
        detect_response_type (some j) txt = (⟨jDumps j⟩, "JSON response (stringified)"))
    ∧ (isTCShape j = true → tcValidate j = none →
        detect_response_type (some j) txt = (⟨jDumps j⟩, "JSON response (stringified)")) := by
  refine ⟨rfl, ?_, ?_, ?_⟩
  · intro h1 h2
    have hshape : isTCShape (JVal.obj fields) = true := by
      show ((match jLookup fields "type" with
             | some (JVal.str t) => t == "text"
             | _ => false) && (jLookup fields "text").isSome) = true
      rw [h1, h2]
      rfl
    have hval : tcValidate (JVal.obj fields) = some ⟨s⟩ := by
      show (match jLookup fields "text" with
            | some (JVal.str s) => some (⟨s⟩ : TextContent)
            | _ => none) = some ⟨s⟩
      rw [h2]
    simp [detect_response_type, hshape, hval]
  · intro h
    simp [detect_response_type, h]
  · intro h1 h2
    simp [detect_response_type, h1, h2]

/-- Witness for C10 at concrete inputs: a TextContent-shaped body is passed
through, a plain JSON body is stringified. -/
theorem C10_witness :
    detect_response_type
        (some (JVal.obj [("type", JVal.str "text"), ("text", JVal.str "hi")])) "x" =
      (⟨"hi"⟩, "Passthrough TextContent response")
    ∧ detect_response_type (some (JVal.bool true)) "x" =
      (⟨"true"⟩, "JSON response (stringified)") := by
  have h := C10_detect_response_classification "x" (JVal.bool true)
    [("type", JVal.str "text"), ("text", JVal.str "hi")] "hi"
  exact ⟨h.2.1 rfl rfl, h.2.2.1 rfl⟩

theorem regLoop_spec (cfg : Config) (occs : List (String × String × Operation)) :
    ∀ seen : List String,
    ((regLoop cfg occs seen).map RegTool.name).Nodup
    ∧ (∀ t ∈ regLoop cfg occs seen, toolNameOk t.name = true ∧ t.name ∉ seen) := by
  induction occs with
  | nil => intro seen; simp [regLoop]
  | cons occ rest ih =>
    intro seen
    simp only [regLoop]
    by_cases h1 : toolNameOk (normalizeCfg (pyUpper occ.2.1 ++ " " ++ occ.1) cfg)
    · by_cases h2 : normalizeCfg (pyUpper occ.2.1 ++ " " ++ occ.1) cfg ∈ seen
      · have hc : seen.contains (normalizeCfg (pyUpper occ.2.1 ++ " " ++ occ.1) cfg) = true := by
          simpa using h2
        simpa [h1, hc, h2] using ih seen
      · have hc : seen.contains (normalizeCfg (pyUpper occ.2.1 ++ " " ++ occ.1) cfg) = false := by
          simpa using h2
        simp only [h1, hc, Bool.not_true, Bool.false_eq_true, if_false, Bool.not_false, if_true]
        have ihn := ih ((normalizeCfg (pyUpper occ.2.1 ++ " " ++ occ.1) cfg) :: seen)
        constructor
        · simp only [List.map_cons, List.nodup_cons]
          constructor
          · intro hmem
            obtain ⟨t, htmem, htname⟩ := List.mem_map.mp hmem
            have := (ihn.2 t htmem).2
            simp [htname] at this
          · exact ihn.1
        · intro t ht
          rcases List.mem_cons.mp ht with heq | hmem
          · subst heq
            exact ⟨h1, h2⟩
          · have := ihn.2 t hmem
            exact ⟨this.1, fun hx => this.2 (List.mem_cons_of_mem _ hx)⟩
    · simpa [h1] using ih seen

/-- C5 (amended): the `openapi` registry build validates every generated
name against the protocol pattern and rejects duplicates, so the names in
any one of its registry snapshots are duplicate-free and pattern-valid. -/
theorem C5_registry_nodup (spec : OASpec) (cfg : Config) :
    ((register_functions spec cfg).map RegTool.name).Nodup
    ∧ ∀ t ∈ register_functions spec cfg, toolNameOk t.name = true := by
  have h := regLoop_spec cfg (specOccs verbs8 (whitelistedPaths spec cfg)) []
  exact ⟨h.1, fun t ht => (h.2 t ht).1⟩

/-- Witness for C5 at a concrete spec: the registered name is pattern-valid. -/
theorem C5_witness :
    toolNameOk "get_x" = true :=
  (C5_registry_nodup { paths := some [("/x", { ops := [("get", {})] })] } {}).2
    { name := "get_x", path := "/x", method := "GET" } (by decide)

/-- C5 counterexample: the `server_lowlevel` registry build cited by the
claim performs neither pattern validation nor duplicate rejection — the
paths `/x` and `/x/` both normalize to `get_x` and both are registered, so
the snapshot contains a duplicate name. -/
theorem C5_counterexample :
    register_functions_ll
        { paths := some [("/x", { ops := [("get", {})] }),
                         ("/x/", { ops := [("get", {})] })] } {} =
      ["get_x", "get_x"]
    ∧ ¬ (register_functions_ll
        { paths := some [("/x", { ops := [("get", {})] }),
                         ("/x/", { ops := [("get", {})] })] } {}).Nodup := by
  exact ⟨by decide, by decide⟩

/-- C1 counterexample: with whitelist `/x` and a spec listing `/api/x`
before `/x`, both operations normalize to `get_x`; registration binds the
name to `/x` (the only whitelisted path), but lookup rescans the unfiltered
spec and returns `/api/x` — not the pair the name was derived from. -/
theorem C1_counterexample :
    register_functions
        { paths := some [("/api/x", { ops := [("get", {})] }),
                         ("/x", { ops := [("get", {})] })] }
        { toolWhitelist := "/x" } =
      [{ name := "get_x", path := "/x", method := "GET" }]
    ∧ (lookup_operation_details "get_x"
        { paths := some [("/api/x", { ops := [("get", {})] }),
                         ("/x", { ops := [("get", {})] })] }
        { toolWhitelist := "/x" }).map (fun od => (od.1, od.2.1)) =
      some ("/api/x", "GET")
    ∧ ("/api/x", "GET") ≠ (("/x" : String), ("GET" : String)) := by
  exact ⟨by decide, by decide, by decide⟩

/-- C2 counterexample: the normalizer only replaces `.`, `-` and `+`; a
tilde in the path survives into the tool name, which then fails the
protocol pattern `[A-Za-z0-9_-]`, contradicting the claim that the output
always matches it. -/
theorem C2_counterexample :
    normalize_tool_name "GET /a~b" none "" = "get_a~b"
    ∧ toolNameOk "get_a~b" = false := by
  exact ⟨by decide, by decide⟩

/-- C3 counterexample: a POST dispatch through the low-level dispatcher
substitutes `user_id` into the path (`.../users/123/tasks`) but does not
remove it from the remaining arguments, so the value is also forwarded in
the JSON request body. -/
theorem C3_counterexample :
    (dispatcher_handler {} ["post_users_by_user_id_tasks"]
        (some { paths := some [("/users/{user_id}/tasks",
                  { ops := [("post",
                    { params := some [{ name := "user_id", loc := some "path", required := true }] })] })],
                servers := some [{ url := some "http://e.com" }] })
        "post_users_by_user_id_tasks" [("user_id", "123")]
        (Except.ok "ok") none).req =
      some { url := "http://e.com/users/123/tasks", method := "POST",
             headers := [("Content-Type", "application/json")],
             query := [], body := some [("user_id", "123")] } := by
  decide

/-- C4 counterexample: with template `/a/{x}/{y}` and both required path
parameters absent, the low-level dispatcher fails at `path.format` on the
first missing key and returns an error naming only `x`; `y` (also missing
and required) is not named anywhere in the result. -/
theorem C4_counterexample :
    (dispatcher_handler {} ["get_a_by_x_by_y"]
        (some { paths := some [("/a/{x}/{y}",
                  { ops := [("get",
                    { params := some [{ name := "x", loc := some "path", required := true },
                                      { name := "y", loc := some "path", required := true }] })] })],
                servers := some [{ url := some "http://e.com" }] })
        "get_a_by_x_by_y" [] (Except.ok "") none).result =
      { content := "Missing parameter: " ++ pyRepr "x", isError := false }
    ∧ (("Missing parameter: " ++ pyRepr "x").toList.contains 'y') = false := by
  exact ⟨by decide, by decide⟩

/-- C8 counterexample: DELETE is a read-only/idempotent method in the
claim's sense, yet the dispatcher sends the remaining arguments of a DELETE
as the JSON body with an empty query string — partitioning is on GET alone,
not on read-only/idempotence. -/
theorem C8_counterexample :
    specReadOnlyIdempotent "DELETE" = true
    ∧ (dispatcher_handler {} ["delete_items_by_id"]
        (some { paths := some [("/items/{id}",
                  { ops := [("delete",
                    { params := some [{ name := "id", loc := some "path", required := true }] })] })],
                servers := some [{ url := some "http://e.com" }] })
        "delete_items_by_id" [("id", "5"), ("note", "n")]
        (Except.ok "") none).req =
      some { url := "http://e.com/items/5", method := "DELETE",
             headers := [("Content-Type", "application/json")],
             query := [], body := some [("id", "5"), ("note", "n")] } := by
  exact ⟨by decide, by decide⟩

/-- C6 counterexample: both the endpoint and the rule are normalized to a
leading-slash form before comparison, so the path `tasks` (no leading
slash) is allowed by the rule `/tasks` even though it neither equals the
rule nor starts with the rule followed by `/` — the claimed iff fails as
stated. -/
theorem C6_counterexample :
    is_tool_whitelisted "tasks" "/tasks" = true
    ∧ (("tasks" : String) == "/tasks"
        || leadsL ("/tasks".toList ++ ['/']) "tasks".toList) = false := by
  exact ⟨by decide, by decide⟩

/-! List and dict helper lemmas shared by the remaining claims. -/

theorem toList_mk (l : List Char) : (String.mk l).toList = l := rfl

theorem mk_toList (s : String) : String.mk s.toList = s := rfl

theorem toList_append (a b : String) : (a ++ b).toList = a.toList ++ b.toList := rfl

theorem leadsL_refl : ∀ l : List Char, leadsL l l = true := by
  intro l
  induction l with
  | nil => rfl
  | cons c r ih => simp [leadsL, ih]

theorem leadsL_append_left : ∀ (a b l : List Char),
    leadsL (a ++ b) l = true → leadsL a l = true := by
  intro a
  induction a with
  | nil => intro b l _; rfl
  | cons c r ih =>
    intro b l h
    cases l with
    | nil => simp [leadsL] at h
    | cons x xs =>
      simp only [List.cons_append, leadsL, Bool.and_eq_true] at h ⊢
      exact ⟨h.1, ih b xs h.2⟩

theorem splitChar_no_sep : ∀ (sep : Char) (l : List Char),
    (∀ c ∈ l, c ≠ sep) → splitChar sep l = [l] := by
  intro sep l
  induction l with
  | nil => intro _; rfl
  | cons c r ih =>
    intro h
    have hc : (c == sep) = false := by
      have := h c (List.mem_cons_self c r)
      simp [this]
    have hr := ih (fun x hx => h x (List.mem_cons_of_mem _ hx))
    simp [splitChar, hc, hr]

theorem dget_nil (k : String) : dget [] k = none := rfl

theorem find?_map_set (k v : String) : ∀ d : List (String × String),
    (d.find? (fun kv => kv.1 == k)).isSome = true →
    (d.map (fun kv => if kv.1 == k then (k, v) else kv)).find? (fun kv => kv.1 == k)
      = some (k, v) := by
  intro d
  induction d with
  | nil => intro h; simp [List.find?] at h
  | cons kv rest ih =>
    intro h
    rw [List.map_cons]
    by_cases hk2 : (kv.1 == k) = true
    · rw [if_pos hk2]
      apply List.find?_cons_of_pos
      simp
    · rw [if_neg hk2]
      rw [@List.find?_cons_of_neg _ (fun kv => kv.1 == k) kv _ hk2]
      apply ih
      rw [@List.find?_cons_of_neg _ (fun kv => kv.1 == k) kv _ hk2] at h
      exact h

theorem dget_dset_self (d : List (String × String)) (k v : String) :
    dget (dset d k v) k = some v := by
  unfold dset
  by_cases h : (d.find? (fun kv => kv.1 == k)).isSome
  · rw [if_pos h]
    unfold dget
    rw [find?_map_set k v d h]
    rfl
  · rw [if_neg h]
    unfold dget
    have hn : d.find? (fun kv => kv.1 == k) = none := by
      revert h
      cases d.find? (fun kv => kv.1 == k) <;> simp
    rw [List.find?_append, hn]
    simp [List.find?_cons]

theorem dget_filter_none (d : List (String × String)) (q : String × String → Bool)
    (k : String) (h : ∀ kv ∈ d, kv.1 = k → q kv = false) :
    dget (d.filter q) k = none := by
  unfold dget
  have : (d.filter q).find? (fun kv => kv.1 == k) = none := by
    rw [List.find?_eq_none]
    intro kv hkv
    have hm := List.mem_filter.mp hkv
    intro hbeq
    have : kv.1 = k := by simpa using hbeq
    have := h kv hm.1 this
    rw [this] at hm
    exact Bool.false_ne_true hm.2
  simp [this]

theorem dget_none_filter (d : List (String × String)) (q : String × String → Bool)
    (k : String) (h : dget d k = none) : dget (d.filter q) k = none := by
  unfold dget at h ⊢
  have hn : d.find? (fun kv => kv.1 == k) = none := by
    revert h
    cases d.find? (fun kv => kv.1 == k) <;> simp
  rw [List.find?_eq_none] at hn
  have : (d.filter q).find? (fun kv => kv.1 == k) = none := by
    rw [List.find?_eq_none]
    intro kv hkv
    exact hn kv (List.mem_filter.mp hkv).1
  simp [this]

theorem dget_ddel_self (d : List (String × String)) (k : String) :
    dget (ddel d k) k = none := by
  apply dget_filter_none
  intro kv _ hk
  simp [hk]

theorem dget_ddel_none (d : List (String × String)) (j k : String)
    (h : dget d k = none) : dget (ddel d j) k = none :=
  dget_none_filter d _ k h

theorem dget_foldl_ddel_none : ∀ (keys : List String) (d : List (String × String))
    (k : String), dget d k = none →
    dget (keys.foldl (fun acc j => ddel acc j) d) k = none := by
  intro keys
  induction keys with
  | nil => intro d k h; simpa using h
  | cons j rest ih =>
    intro d k h
    simp only [List.foldl_cons]
    exact ih (ddel d j) k (dget_ddel_none d j k h)

theorem dget_foldl_ddel_mem : ∀ (keys : List String) (d : List (String × String))
    (k : String), k ∈ keys →
    dget (keys.foldl (fun acc j => ddel acc j) d) k = none := by
  intro keys
  induction keys with
  | nil => intro d k h; simp at h
  | cons j rest ih =>
    intro d k h
    simp only [List.foldl_cons]
    rcases List.mem_cons.mp h with heq | hmem
    · subst heq
      exact dget_foldl_ddel_none rest (ddel d k) k (dget_ddel_self d k)
    · exact ih (ddel d j) k hmem

theorem dget_filter_removed (d : List (String × String)) (rem : List String)
    (k : String) (h : k ∈ rem) :
    dget (d.filter (fun kv => !rem.contains kv.1)) k = none := by
  apply dget_filter_none
  intro kv _ hk
  subst hk
  simp [h]

/-- C6 (amended): when the whitelist is unset or empty every path is
allowed; for a literal rule `R` containing no braces (a single entry,
already in the canonical `/`-prefixed, slash- and whitespace-trimmed form
the filter normalizes to), a canonical path is allowed iff it equals `R` or
starts with `R` followed by `/`; in particular `/tasks` allows `/tasks` and
`/tasks/123` and rejects `/task` and `/other/tasks`. For non-canonical
inputs the comparison is made after normalizing both sides with
`"/" + strip("/")`. -/
theorem C6_theorem (path R : String)
    (hpc : normEp path = path) (hRc : normEp R = R)
    (hws : stripWSs R = R)
    (hb1 : R.toList.contains lbrace = false)
    (hb2 : R.toList.contains rbrace = false)
    (hcomma : ∀ c ∈ R.toList, c ≠ ',') :
    (∀ q : String, is_tool_whitelisted q "" = true)
    ∧ (is_tool_whitelisted path R = true ↔
        (path = R ∨ leadsL (R.toList ++ ['/']) path.toList = true))
    ∧ is_tool_whitelisted "/tasks" "/tasks" = true
    ∧ is_tool_whitelisted "/tasks/123" "/tasks" = true
    ∧ is_tool_whitelisted "/task" "/tasks" = false
    ∧ is_tool_whitelisted "/other/tasks" "/tasks" = false := by
  have hRlist : R.toList = '/' :: (stripP (fun c => c == '/') R.toList) := by
    conv_lhs => rw [← hRc]
    rfl
  have hRne : (R == "") = false := by
    cases hb : R == ""
    · rfl
    · have : R = "" := by simpa using hb
      rw [this] at hRlist
      simp at hRlist
  have hwsR : stripWS R.toList = R.toList := by
    have := congrArg String.toList hws
    simpa [stripWSs] using this
  have hRlne : R.toList ≠ [] := by
    rw [hRlist]
    simp
  have hsplit : splitChar ',' R.toList = [R.toList] := splitChar_no_sep ',' R.toList hcomma
  have key : is_tool_whitelisted path R
      = (leadsL R.toList path.toList
          && (path.toList == R.toList || leadsL (R.toList ++ ['/']) path.toList)) := by
    unfold is_tool_whitelisted
    have hie : R.toList.isEmpty = false := by
      cases hh : R.toList.isEmpty
      · rfl
      · exact absurd (by simpa using hh) hRlne
    simp only [hws, hRne, Bool.false_eq_true, if_false, hsplit, List.map_cons, List.map_nil,
      hwsR, List.filter, hie, Bool.not_false]
    simp only [List.any_cons, List.any_nil, Bool.or_false]
    rw [mk_toList, hRc, hb1]
    simp only [Bool.false_and, Bool.false_eq_true, if_false, hpc]
  refine ⟨fun q => rfl, ?_, by decide, by decide, by decide, by decide⟩
  rw [key]
  constructor
  · intro h
    simp only [Bool.and_eq_true, Bool.or_eq_true] at h
    rcases h.2 with hbeq | hlead
    · left
      have : path.toList = R.toList := by simpa using hbeq
      have := congrArg String.mk this
      simpa [mk_toList] using this
    · right; exact hlead
  · intro h
    rcases h with heq | hlead
    · subst heq
      simp [leadsL_refl]
    · have h1 : leadsL R.toList path.toList = true := leadsL_append_left _ _ _ hlead
      simp only [Bool.and_eq_true, Bool.or_eq_true]
      exact ⟨h1, Or.inr hlead⟩

/-- Witness for C6 at concrete inputs: the empty whitelist allows `/x`, and
the literal characterization holds for `/tasks/123` against rule `/tasks`. -/
theorem C6_witness :
    is_tool_whitelisted "/x" "" = true
    ∧ (is_tool_whitelisted "/tasks/123" "/tasks" = true ↔
        ("/tasks/123" = "/tasks"
          ∨ leadsL ("/tasks".toList ++ ['/']) "/tasks/123".toList = true)) := by
  have h := C6_theorem "/tasks/123" "/tasks" (by decide) (by decide) (by decide)
    (by decide) (by decide) (by decide)
  exact ⟨h.1 "/x", h.2.1⟩

/-- C8 (amended): whenever either dispatcher issues an HTTP request, the
remaining arguments are partitioned on the method being GET. In the
low-level dispatcher (after `STRIP_PARAM` and GET placeholder removal) a
GET sends them as query parameters with no body, while every other method
(including the idempotent PUT and DELETE) sends an empty query, the
remaining arguments as the JSON body, and a `Content-Type:
application/json` header. In the FastMCP dispatcher `call_function` (for a
placeholder path, after `STRIP_PARAM`, substitution-key removal and absent
`stream` flag) the same partition holds: GET puts the remaining arguments
in the query with no body, every other method sends them as the JSON body
with an empty query and the `Content-Type: application/json` header. -/
theorem C8_theorem :
    (∀ (cfg : Config) (toolNames : List String) (spec : OASpec)
       (fname : String) (args : List (String × String))
       (httpResult : Except String String) (parsedResp : Option JVal)
       (p M : String) (op : Operation) (req : BuiltRequest),
       lookup_ll fname spec cfg = some (p, M, op) →
       (dispatcher_handler cfg toolNames (some spec) fname args
           httpResult parsedResp).req = some req →
       req.method = M
       ∧ (M = "GET" →
           req.query = (wholeSegKeys p).foldl (fun acc k => ddel acc k)
             (strip_parameters cfg args)
           ∧ req.body = none)
       ∧ (M ≠ "GET" →
           req.query = [] ∧ req.body = some (strip_parameters cfg args)
           ∧ dget req.headers "Content-Type" = some "application/json"))
    ∧ (∀ (cfg : Config) (spec : OASpec) (fname : String) (fd : FunctionDef)
       (args : List (String × String)) (httpResult : Except String String)
       (req : BuiltRequest),
       fd.path.toList.contains lbrace = true →
       fd.path.toList.contains rbrace = true →
       dget ((strip_parameters cfg args).filter
           (fun kv => !(substLoop fd.path.toList
             (strip_parameters cfg args)).2.contains kv.1)) "stream" = none →
       (call_function cfg spec fname fd args httpResult).req = some req →
       req.method = fd.method
       ∧ (fd.method = "GET" →
           req.query = (strip_parameters cfg args).filter
             (fun kv => !(substLoop fd.path.toList
               (strip_parameters cfg args)).2.contains kv.1)
           ∧ req.body = none)
       ∧ (fd.method ≠ "GET" →
           req.query = []
           ∧ req.body = some ((strip_parameters cfg args).filter
               (fun kv => !(substLoop fd.path.toList
                 (strip_parameters cfg args)).2.contains kv.1))
           ∧ dget req.headers "Content-Type" = some "application/json")) := by
  constructor
  · intro cfg toolNames spec fname args httpResult parsedResp p M op req hlk hreq
    unfold dispatcher_handler at hreq
    cases hc : toolNames.contains fname with
    | false => rw [hc] at hreq; simp at hreq
    | true =>
      rw [hc] at hreq
      simp only [Bool.not_true, Bool.false_eq_true, if_false] at hreq
      rw [hlk] at hreq
      cases hm : (M == "GET") with
      | true =>
        have hM : M = "GET" := by simpa using hm
        simp only [bne, hm, Bool.not_true, Bool.false_eq_true, if_false, if_true,
          Bool.not_false] at hreq
        repeat' split at hreq
        all_goals simp only [Option.some.injEq, reduceCtorEq] at hreq
        all_goals subst hreq
        all_goals exact ⟨rfl, fun _ => ⟨rfl, rfl⟩, fun hne => absurd hM hne⟩
      | false =>
        have hM : M ≠ "GET" := by simpa using hm
        simp only [bne, hm, Bool.not_false, Bool.false_eq_true, if_false, if_true] at hreq
        repeat' split at hreq
        all_goals simp only [Option.some.injEq, reduceCtorEq] at hreq
        all_goals subst hreq
        all_goals refine ⟨rfl, fun heq => absurd heq hM, fun _ => ⟨rfl, rfl, ?_⟩⟩
        all_goals exact dget_dset_self _ _ _
  · intro cfg spec fname fd args httpResult req hb1 hb2 hstream hreq
    unfold call_function at hreq
    simp only [hb1, hb2, Bool.and_self, if_true] at hreq
    cases hm : (fd.method == "GET") with
    | true =>
      have hM : fd.method = "GET" := by simpa using hm
      simp only [bne, hm, Bool.not_true, Bool.false_eq_true, if_false, if_true,
        Bool.not_false] at hreq
      simp only [hstream] at hreq
      repeat' split at hreq
      all_goals simp only [Option.some.injEq, reduceCtorEq] at hreq
      all_goals subst hreq
      all_goals exact ⟨rfl, fun _ => ⟨rfl, rfl⟩, fun hne => absurd hM hne⟩
    | false =>
      have hM : fd.method ≠ "GET" := by simpa using hm
      simp only [bne, hm, Bool.not_false, Bool.false_eq_true, if_false, if_true] at hreq
      simp only [hstream] at hreq
      repeat' split at hreq
      all_goals simp only [Option.some.injEq, reduceCtorEq] at hreq
      all_goals subst hreq
      all_goals refine ⟨rfl, fun heq => absurd heq hM, fun _ => ⟨rfl, rfl, ?_⟩⟩
      all_goals exact dget_dset_self _ _ _

/-- Witness for C8: a concrete low-level GET dispatch sends the remaining
argument as query with no body, and a concrete FastMCP POST dispatch sends
an empty query, the remaining argument as the JSON body, and the
`Content-Type: application/json` header. -/
theorem C8_witness :
    (({ url := "http://e.com/items/5", method := "GET", headers := [],
        query := [("extra", "1")], body := none } : BuiltRequest).query =
       (wholeSegKeys "/items/\x7bid\x7d").foldl (fun acc k => ddel acc k)
         (strip_parameters {} [("id", "5"), ("extra", "1")])
     ∧ ({ url := "http://e.com/items/5", method := "GET", headers := [],
          query := [("extra", "1")], body := none } : BuiltRequest).body = none)
    ∧ (({ url := "http://e.com/items/5", method := "POST",
          headers := [("Content-Type", "application/json")], query := [],
          body := some [("extra", "1")] } : BuiltRequest).query = []
       ∧ ({ url := "http://e.com/items/5", method := "POST",
            headers := [("Content-Type", "application/json")], query := [],
            body := some [("extra", "1")] } : BuiltRequest).body
           = some ((strip_parameters {} [("id", "5"), ("extra", "1")]).filter
               (fun kv => !(substLoop "/items/\x7bid\x7d".toList
                 (strip_parameters {} [("id", "5"), ("extra", "1")])).2.contains kv.1))
       ∧ dget ({ url := "http://e.com/items/5", method := "POST",
                 headers := [("Content-Type", "application/json")], query := [],
                 body := some [("extra", "1")] } : BuiltRequest).headers "Content-Type"
           = some "application/json") := by
  constructor
  · have h := C8_theorem.1 {} ["get_items_by_id"]
      { paths := some [("/items/\x7bid\x7d",
          { ops := [("get",
              { params := some [{ name := "id", loc := some "path", required := true }] })] })],
        servers := some [{ url := some "http://e.com" }] }
      "get_items_by_id" [("id", "5"), ("extra", "1")] (Except.ok "") none
      "/items/\x7bid\x7d" "GET"
      { params := some [{ name := "id", loc := some "path", required := true }] }
      { url := "http://e.com/items/5", method := "GET", headers := [],
        query := [("extra", "1")], body := none }
      (by decide) (by decide)
    exact h.2.1 rfl
  · have h := C8_theorem.2 {}
      { paths := some [("/items/\x7bid\x7d",
          { ops := [("post",
              { params := some [{ name := "id", loc := some "path", required := true }] })] })],
        servers := some [{ url := some "http://e.com" }] }
      "post_items_by_id"
      { path := "/items/\x7bid\x7d", method := "POST",
        op := { params := some [{ name := "id", loc := some "path", required := true }] } }
      [("id", "5"), ("extra", "1")] (Except.ok "")
      { url := "http://e.com/items/5", method := "POST",
        headers := [("Content-Type", "application/json")], query := [],
        body := some [("extra", "1")] }
      (by decide) (by decide) (by decide) (by decide)
    exact h.2.2 (by decide)

/-- C3 (amended): in the FastMCP dispatcher every argument consumed to
substitute a placeholder is removed from the remaining argument set for
every HTTP method, so it appears in neither the query parameters nor the
JSON body; in the low-level dispatcher, for GET requests the whole-segment
placeholder keys are removed from the remaining arguments, so a
substituted value is never also forwarded as a query parameter (for
non-GET methods the low-level dispatcher performs no such removal — see
the counterexample). -/
theorem C3_theorem :
    (∀ (cfg : Config) (spec : OASpec) (fname : String) (fd : FunctionDef)
       (args : List (String × String)) (httpResult : Except String String)
       (req : BuiltRequest) (k : String),
       fd.path.toList.contains lbrace = true →
       fd.path.toList.contains rbrace = true →
       (call_function cfg spec fname fd args httpResult).req = some req →
       k ∈ (substLoop fd.path.toList (strip_parameters cfg args)).2 →
       dget req.query k = none ∧ ∀ b, req.body = some b → dget b k = none)
    ∧ (∀ (cfg : Config) (toolNames : List String) (spec : OASpec) (fname : String)
       (args : List (String × String)) (httpResult : Except String String)
       (parsedResp : Option JVal) (p M : String) (op : Operation)
       (req : BuiltRequest) (k : String),
       lookup_ll fname spec cfg = some (p, M, op) →
       M = "GET" →
       (dispatcher_handler cfg toolNames (some spec) fname args
           httpResult parsedResp).req = some req →
       k ∈ wholeSegKeys p →
       dget req.query k = none ∧ req.body = none) := by
  constructor
  · intro cfg spec fname fd args httpResult req k hb1 hb2 hreq hk
    have hn1 : dget ((strip_parameters cfg args).filter
        (fun kv => !(substLoop fd.path.toList (strip_parameters cfg args)).2.contains kv.1)) k
        = none := dget_filter_removed _ _ _ hk
    unfold call_function at hreq
    simp only [hb1, hb2, Bool.and_self, if_true] at hreq
    repeat' split at hreq
    all_goals simp only [Option.some.injEq, reduceCtorEq] at hreq
    all_goals subst hreq
    all_goals constructor
    all_goals try exact hn1
    all_goals try exact dget_ddel_none _ _ _ hn1
    all_goals try rfl
    all_goals intro b hb
    all_goals try (simp only [reduceCtorEq] at hb)
    all_goals injection hb with hbx
    all_goals subst hbx
    all_goals first
      | exact hn1
      | exact dget_ddel_none _ _ _ hn1
  · intro cfg toolNames spec fname args httpResult parsedResp p M op req k hlk hM hreq hk
    unfold dispatcher_handler at hreq
    cases hc : toolNames.contains fname with
    | false => rw [hc] at hreq; simp at hreq
    | true =>
      rw [hc] at hreq
      simp only [Bool.not_true, Bool.false_eq_true, if_false] at hreq
      rw [hlk] at hreq
      have hm : (M == "GET") = true := by simp [hM]
      simp only [bne, hm, Bool.not_true, Bool.false_eq_true, if_false, if_true,
        Bool.not_false] at hreq
      repeat' split at hreq
      all_goals simp only [Option.some.injEq, reduceCtorEq] at hreq
      all_goals subst hreq
      all_goals exact ⟨dget_foldl_ddel_mem _ _ _ hk, rfl⟩

/-- Witness for C3 at a concrete FastMCP POST call: the consumed `user_id`
appears in neither the query nor the body of the issued request. -/
theorem C3_witness :
    dget ({ url := "http://e.com/users/123/tasks", method := "POST",
            headers := [("Content-Type", "application/json")], query := [],
            body := some [] } : BuiltRequest).query "user_id" = none
    ∧ ∀ b, ({ url := "http://e.com/users/123/tasks", method := "POST",
              headers := [("Content-Type", "application/json")], query := [],
              body := some [] } : BuiltRequest).body = some b →
        dget b "user_id" = none := by
  have h := C3_theorem.1 {}
    { servers := some [{ url := some "http://e.com" }] } "post_users_by_user_id_tasks"
    { path := "/users/{user_id}/tasks", method := "POST",
      op := { params := some [{ name := "user_id", loc := some "path", required := true }] } }
    [("user_id", "123")] (Except.ok "ok")
    { url := "http://e.com/users/123/tasks", method := "POST",
      headers := [("Content-Type", "application/json")], query := [], body := some [] }
    "user_id" (by decide) (by decide) (by decide) (by decide)
  exact h

theorem formatF_missing : ∀ (f : Nat) (tpl : List Char) (ps : List (String × String))
    (k : String), formatF ps f tpl = Except.error (FmtErr.missing k) →
    dget ps k = none := by
  intro f
  induction f with
  | zero =>
    intro tpl ps k h
    cases tpl with
    | nil => simp [formatF] at h
    | cons c rest => simp [formatF] at h
  | succ f ih =>
    intro tpl ps k h
    cases tpl with
    | nil => simp [formatF] at h
    | cons c rest =>
      simp only [formatF] at h
      by_cases hc : (c == lbrace) = true
      · rw [if_pos hc] at h
        cases hsp : splitClose rest with
        | none => rw [hsp] at h; simp at h
        | some it =>
          obtain ⟨inner, tail⟩ := it
          rw [hsp] at h
          by_cases hi : inner.isEmpty
          · simp [hi] at h
          · simp only [hi, Bool.false_eq_true, if_false] at h
            cases hdg : dget ps (String.mk inner) with
            | none =>
              rw [hdg] at h
              simp only [Except.error.injEq, FmtErr.missing.injEq] at h
              rw [← h]
              exact hdg
            | some v =>
              rw [hdg] at h
              cases hrec : formatF ps f tail with
              | ok r => rw [hrec] at h; simp [Except.map] at h
              | error e =>
                rw [hrec] at h
                simp only [Except.map] at h
                injection h with h2
                subst h2
                exact ih tail ps k hrec
      · rw [if_neg hc] at h
        by_cases hc2 : (c == rbrace) = true
        · simp [hc2] at h
        · simp only [hc2, Bool.false_eq_true, if_false] at h
          cases hrec : formatF ps f rest with
          | ok r => rw [hrec] at h; simp [Except.map] at h
          | error e =>
            rw [hrec] at h
            simp only [Except.map] at h
            injection h with h2
            subst h2
            exact ih rest ps k hrec

/-- C4 (amended): when required path parameters are absent, the FastMCP
dispatcher returns a structured validation error naming all of the missing
declared path parameters; the low-level dispatcher substitutes first and
returns a structured error result naming the first missing placeholder
(which is indeed absent from the supplied arguments). Both are ordinary
returned results, not exceptions. -/
theorem C4_theorem :
    (∀ (cfg : Config) (spec : OASpec) (fname : String) (fd : FunctionDef)
       (args : List (String × String)) (httpResult : Except String String)
       (base : String),
       is_tool_whitelisted fd.path cfg.toolWhitelist = true →
       build_base_url spec cfg = some base →
       ((fd.op.params.getD []).filter
          (fun q => q.loc == some "path" && q.required
            && (dget (strip_parameters cfg args) q.name).isNone)).map Param.name ≠ [] →
       call_function cfg spec fname fd args httpResult =
         ⟨none, jsonErrStr ("Missing required path parameters: "
           ++ pyReprList (((fd.op.params.getD []).filter
                (fun q => q.loc == some "path" && q.required
                  && (dget (strip_parameters cfg args) q.name).isNone)).map Param.name))⟩)
    ∧ (∀ (cfg : Config) (toolNames : List String) (spec : OASpec) (fname : String)
       (args : List (String × String)) (httpResult : Except String String)
       (parsedResp : Option JVal) (p M : String) (op : Operation) (k : String),
       toolNames.contains fname = true →
       lookup_ll fname spec cfg = some (p, M, op) →
       formatPath p.toList (strip_parameters cfg args) =
         Except.error (FmtErr.missing k) →
       dispatcher_handler cfg toolNames (some spec) fname args httpResult parsedResp =
         ⟨none, ⟨"Missing parameter: " ++ pyRepr k, false⟩⟩
       ∧ dget (strip_parameters cfg args) k = none) := by
  constructor
  · intro cfg spec fname fd args httpResult base hwl hbase hmiss
    unfold call_function
    simp only [hwl, Bool.not_true, Bool.false_eq_true, if_false, hbase]
    have hnonempty : ((fd.op.params.getD []).filter
        (fun q => q.loc == some "path" && q.required
          && (dget (strip_parameters cfg args) q.name).isNone)).map Param.name ≠ [] := hmiss
    have hfilne : (fd.op.params.getD []).filter
        (fun q => q.loc == some "path" && q.required
          && (dget (strip_parameters cfg args) q.name).isNone) ≠ [] := by
      intro hcon
      rw [hcon] at hnonempty
      simp at hnonempty
    obtain ⟨x, hx⟩ := List.exists_mem_of_ne_nil _ hfilne
    have hxf := List.mem_filter.mp hx
    have hxpath : (x.loc == some "path") = true := by
      have := hxf.2
      simp only [Bool.and_eq_true] at this
      exact this.1.1
    have hguard : ((fd.op.params.getD []).filter
        (fun q => q.loc == some "path")).map Param.name ≠ [] := by
      intro hcon
      have : (fd.op.params.getD []).filter (fun q => q.loc == some "path") = [] := by
        cases hx2 : (fd.op.params.getD []).filter (fun q => q.loc == some "path") with
        | nil => rfl
        | cons a l => rw [hx2] at hcon; simp at hcon
      have hxin : x ∈ (fd.op.params.getD []).filter (fun q => q.loc == some "path") :=
        List.mem_filter.mpr ⟨hxf.1, hxpath⟩
      rw [this] at hxin
      simp at hxin
    have hguardb : (((fd.op.params.getD []).filter
        (fun q => q.loc == some "path")).map Param.name).isEmpty = false := by
      cases hg : (((fd.op.params.getD []).filter
          (fun q => q.loc == some "path")).map Param.name).isEmpty
      · rfl
      · exact absurd (by simpa using hg) hguard
    have hmissb : (((fd.op.params.getD []).filter
        (fun q => q.loc == some "path" && q.required
          && (dget (strip_parameters cfg args) q.name).isNone)).map Param.name).isEmpty
        = false := by
      cases hg : (((fd.op.params.getD []).filter
          (fun q => q.loc == some "path" && q.required
            && (dget (strip_parameters cfg args) q.name).isNone)).map Param.name).isEmpty
      · rfl
      · exact absurd (by simpa using hg) hnonempty
    simp only [hguardb, Bool.not_false, if_true, hmissb]
  · intro cfg toolNames spec fname args httpResult parsedResp p M op k hc hlk hfmt
    constructor
    · unfold dispatcher_handler
      simp only [hc, Bool.not_true, Bool.false_eq_true, if_false, hlk, hfmt]
    · exact formatF_missing _ _ _ _ hfmt

/-- Witness for C4: a FastMCP call with both required path parameters
absent returns the error naming both, and a low-level dispatch with a
missing placeholder returns the structured first-missing error. -/
theorem C4_witness :
    call_function {} { servers := some [{ url := some "http://e.com" }] }
        "get_a_by_x_by_y"
        { path := "/a/{x}/{y}", method := "GET",
          op := { params := some [{ name := "x", loc := some "path", required := true },
                                  { name := "y", loc := some "path", required := true }] } }
        [] (Except.ok "") =
      ⟨none, jsonErrStr ("Missing required path parameters: " ++ pyReprList ["x", "y"])⟩
    ∧ dispatcher_handler {} ["get_items_by_id"]
        (some { paths := some [("/items/{id}",
                  { ops := [("get",
                      { params := some [{ name := "id", loc := some "path", required := true }] })] })],
                servers := some [{ url := some "http://e.com" }] })
        "get_items_by_id" [] (Except.ok "") none =
      ⟨none, ⟨"Missing parameter: " ++ pyRepr "id", false⟩⟩ := by
  constructor
  · have h := C4_theorem.1 {} { servers := some [{ url := some "http://e.com" }] }
      "get_a_by_x_by_y"
      { path := "/a/{x}/{y}", method := "GET",
        op := { params := some [{ name := "x", loc := some "path", required := true },
                                { name := "y", loc := some "path", required := true }] }
      }
      [] (Except.ok "") "http://e.com" (by decide) (by decide) (by decide)
    rw [h]
    rfl
  · have h := C4_theorem.2 {} ["get_items_by_id"]
      { paths := some [("/items/{id}",
            { ops := [("get",
                { params := some [{ name := "id", loc := some "path", required := true }] })] })],
        servers := some [{ url := some "http://e.com" }] }
      "get_items_by_id" [] (Except.ok "") none "/items/{id}" "GET"
      { params := some [{ name := "id", loc := some "path", required := true }] } "id"
      (by decide) (by decide) (by rfl)
    exact h.1

theorem specOccs_all_path (verbs : List String) (p : String) (it : PathItem) :
    ∀ occ ∈ (it.ops.filterMap (fun mo =>
      if verbs.contains (pyLower mo.1) then some (p, mo.1, mo.2) else none)), occ.1 = p := by
  intro occ hocc
  obtain ⟨mo, _, hmo⟩ := List.mem_filterMap.mp hocc
  by_cases hv : verbs.contains (pyLower mo.1)
  · rw [if_pos hv] at hmo
    injection hmo with h2
    rw [← h2]
  · rw [if_neg hv] at hmo
    simp at hmo

theorem specOccs_filter (verbs : List String) (ps : List (String × PathItem))
    (pred : String → Bool) :
    specOccs verbs (ps.filter (fun q => pred q.1))
      = (specOccs verbs ps).filter (fun occ => pred occ.1) := by
  induction ps with
  | nil => rfl
  | cons q rest ih =>
    obtain ⟨p, it⟩ := q
    by_cases hp : pred p
    · simp only [specOccs, List.filter_cons, hp, if_true, List.flatMap_cons]
      rw [List.filter_append]
      have hall : (it.ops.filterMap (fun mo =>
          if verbs.contains (pyLower mo.1) then some (p, mo.1, mo.2) else none)).filter
            (fun occ => pred occ.1)
          = it.ops.filterMap (fun mo =>
            if verbs.contains (pyLower mo.1) then some (p, mo.1, mo.2) else none) := by
        rw [List.filter_eq_self]
        intro occ hocc
        rw [specOccs_all_path verbs p it occ hocc]
        exact hp
      rw [hall]
      simp only [specOccs] at ih
      rw [ih]
    · have hpf : pred p = false := by
        cases hh : pred p
        · rfl
        · exact absurd hh hp
      simp only [specOccs, List.filter_cons, hpf, Bool.false_eq_true, if_false,
        List.flatMap_cons]
      rw [List.filter_append]
      have hnone : (it.ops.filterMap (fun mo =>
          if verbs.contains (pyLower mo.1) then some (p, mo.1, mo.2) else none)).filter
            (fun occ => pred occ.1) = [] := by
        rw [List.filter_eq_nil_iff]
        intro occ hocc
        rw [specOccs_all_path verbs p it occ hocc]
        simp [hpf]
      rw [hnone]
      simp only [specOccs] at ih
      rw [ih]
      rfl

theorem find?_filter_of_find? {α : Type} (l : List α) (p q : α → Bool) (y : α)
    (hf : l.find? p = some y) (hq : q y = true) :
    (l.filter q).find? p = some y := by
  induction l with
  | nil => simp [List.find?] at hf
  | cons a rest ih =>
    by_cases hpa : p a = true
    · rw [List.find?_cons_of_pos _ hpa] at hf
      injection hf with h2
      subst h2
      rw [List.filter_cons, if_pos hq]
      exact List.find?_cons_of_pos _ hpa
    · rw [List.find?_cons_of_neg _ hpa] at hf
      rw [List.filter_cons]
      by_cases hqa : q a = true
      · rw [if_pos hqa]
        rw [List.find?_cons_of_neg _ hpa]
        exact ih hf
      · rw [if_neg hqa]
        exact ih hf

theorem regLoop_mem (cfg : Config) : ∀ (occs : List (String × String × Operation))
    (seen : List String) (t : RegTool), t ∈ regLoop cfg occs seen →
    ∃ occ, occs.find? (nameMatch cfg t.name) = some occ
      ∧ occ.1 = t.path ∧ pyUpper occ.2.1 = t.method := by
  intro occs
  induction occs with
  | nil => intro seen t ht; simp [regLoop] at ht
  | cons occ0 rest ih =>
    intro seen t ht
    simp only [regLoop] at ht
    by_cases h1 : toolNameOk (normalizeCfg (pyUpper occ0.2.1 ++ " " ++ occ0.1) cfg) = true
    · by_cases h2 : (seen.contains (normalizeCfg (pyUpper occ0.2.1 ++ " " ++ occ0.1) cfg)) = true
      · rw [if_neg (by simp [h1]), if_pos h2] at ht
        have hseen := ((regLoop_spec cfg rest seen).2 t ht).2
        have hne : (normalizeCfg (pyUpper occ0.2.1 ++ " " ++ occ0.1) cfg == t.name) = false := by
          cases hb : (normalizeCfg (pyUpper occ0.2.1 ++ " " ++ occ0.1) cfg == t.name)
          · rfl
          · have heq : normalizeCfg (pyUpper occ0.2.1 ++ " " ++ occ0.1) cfg = t.name := by
              simpa using hb
            rw [heq] at h2
            exact absurd (by simpa using h2) hseen
        have hnm : nameMatch cfg t.name occ0 = false := by
          simp only [nameMatch]
          rw [hne, Bool.and_false]
        obtain ⟨occ, hf, hp, hm⟩ := ih seen t ht
        refine ⟨occ, ?_, hp, hm⟩
        rw [List.find?_cons_of_neg _ (by simp [hnm])]
        exact hf
      · rw [if_neg (by simp [h1]), if_neg (by simpa using h2)] at ht
        rcases List.mem_cons.mp ht with heq | hmem
        · subst heq
          refine ⟨occ0, ?_, rfl, rfl⟩
          apply List.find?_cons_of_pos
          simp only [nameMatch]
          rw [h1, Bool.true_and]
          exact beq_self_eq_true _
        · have hseen := ((regLoop_spec cfg rest
            ((normalizeCfg (pyUpper occ0.2.1 ++ " " ++ occ0.1) cfg) :: seen)).2 t hmem).2
          have hne : (normalizeCfg (pyUpper occ0.2.1 ++ " " ++ occ0.1) cfg == t.name)
              = false := by
            cases hb : (normalizeCfg (pyUpper occ0.2.1 ++ " " ++ occ0.1) cfg == t.name)
            · rfl
            · have heq : normalizeCfg (pyUpper occ0.2.1 ++ " " ++ occ0.1) cfg = t.name := by
                simpa using hb
              exact absurd (heq ▸ List.mem_cons_self _ _) hseen
          have hnm : nameMatch cfg t.name occ0 = false := by
            simp only [nameMatch]
            rw [hne, Bool.and_false]
          obtain ⟨occ, hf, hp, hm⟩ := ih _ t hmem
          refine ⟨occ, ?_, hp, hm⟩
          rw [List.find?_cons_of_neg _ (by simp [hnm])]
          exact hf
    · have h1f : toolNameOk (normalizeCfg (pyUpper occ0.2.1 ++ " " ++ occ0.1) cfg)
          = false := by
        cases hh : toolNameOk (normalizeCfg (pyUpper occ0.2.1 ++ " " ++ occ0.1) cfg)
        · rfl
        · exact absurd hh h1
      rw [if_pos (by rw [h1f]; rfl)] at ht
      have hnm : nameMatch cfg t.name occ0 = false := by
        simp only [nameMatch]
        rw [h1f, Bool.false_and]
      obtain ⟨occ, hf, hp, hm⟩ := ih seen t ht
      refine ⟨occ, ?_, hp, hm⟩
      rw [List.find?_cons_of_neg _ (by simp [hnm])]
      exact hf

/-- C1 (amended): for every tool successfully registered from a spec,
looking its name up against the same spec under the same configuration
returns exactly the (path, method) pair the name was derived from,
provided the first pattern-valid operation of the unfiltered spec whose
re-derived name equals the tool's name lies on a whitelisted path (always
the case when the whitelist is empty). Without that proviso, lookup — which
rescans the spec without the whitelist filter — can return an earlier,
non-whitelisted operation with the same normalized name. -/
theorem C1_theorem (spec : OASpec) (cfg : Config) (t : RegTool)
    (ps : List (String × PathItem)) (hps : spec.paths = some ps)
    (ht : t ∈ register_functions spec cfg)
    (hwl : ∀ occ, (specOccs verbs8 ps).find? (nameMatch cfg t.name) = some occ →
        is_tool_whitelisted occ.1 cfg.toolWhitelist = true) :
    (lookup_operation_details t.name spec cfg).map (fun od => (od.1, od.2.1))
      = some (t.path, t.method) := by
  unfold register_functions whitelistedPaths at ht
  rw [hps] at ht
  simp only [Option.getD_some] at ht
  rw [specOccs_filter verbs8 ps (fun x => is_tool_whitelisted x cfg.toolWhitelist)] at ht
  obtain ⟨occF, hfind, hpath, hmeth⟩ := regLoop_mem cfg _ [] t ht
  have hx := List.find?_some hfind
  have hmemF : occF ∈ (specOccs verbs8 ps).filter
      (fun occ => is_tool_whitelisted occ.1 cfg.toolWhitelist) :=
    List.mem_of_find?_eq_some hfind
  have hmemFull : occF ∈ specOccs verbs8 ps := (List.mem_filter.mp hmemF).1
  have hsome : ((specOccs verbs8 ps).find? (nameMatch cfg t.name)).isSome := by
    rw [List.find?_isSome]
    exact ⟨occF, hmemFull, hx⟩
  obtain ⟨y, hy⟩ := Option.isSome_iff_exists.mp hsome
  have hwly := hwl y hy
  have hyf := find?_filter_of_find? (specOccs verbs8 ps)
    (nameMatch cfg t.name) (fun occ => is_tool_whitelisted occ.1 cfg.toolWhitelist) y hy hwly
  rw [hfind] at hyf
  injection hyf with h2
  subst h2
  unfold lookup_operation_details
  rw [hps]
  show Option.map (fun od => (od.1, od.2.1))
      (((specOccs verbs8 ps).find? (nameMatch cfg t.name)).map
        (fun occ => (occ.1, pyUpper occ.2.1, occ.2.2))) = some (t.path, t.method)
  rw [hy]
  show some (occF.1, pyUpper occF.2.1) = some (t.path, t.method)
  rw [hpath, hmeth]

/-- Witness for C1 at a one-operation spec with an empty whitelist: the
registered `get_pets_by_id` looks up to its own derivation pair. -/
theorem C1_witness :
    (lookup_operation_details "get_pets_by_id"
        { paths := some [("/pets/{id}", { ops := [("get", {})] })] } {}).map
      (fun od => (od.1, od.2.1)) = some ("/pets/{id}", "GET") := by
  refine C1_theorem { paths := some [("/pets/{id}", { ops := [("get", {})] })] } {}
    { name := "get_pets_by_id", path := "/pets/{id}", method := "GET" }
    [("/pets/{id}", { ops := [("get", {})] })] rfl (by decide) ?_
  intro occ hocc
  have hv : (specOccs verbs8 [("/pets/{id}", ({ ops := [("get", {})] } : PathItem))]).find?
      (nameMatch {} "get_pets_by_id") = some ("/pets/{id}", "get", {}) := by decide
  rw [hv] at hocc
  injection hocc with h2
  subst h2
  decide

theorem matchToks_seg_extend (ts : List PTok) (rest : List Char) :
    ∀ v : List Char, v ≠ [] → (∀ c ∈ v, c ≠ '/') → matchToks ts rest = true →
    matchToks (PTok.seg :: ts) (v ++ rest) = true := by
  intro v
  induction v with
  | nil => intro h _ _; exact absurd rfl h
  | cons c v2 ih =>
    intro _ hall hm
    cases v2 with
    | nil =>
      show ((c != '/') && (matchToks ts rest || matchToks (PTok.seg :: ts) rest)) = true
      have hc : c ≠ '/' := hall c (List.mem_cons_self _ _)
      rw [hm, Bool.true_or, Bool.and_true]
      simp [hc]
    | cons d v3 =>
      show ((c != '/') && (matchToks ts ((d :: v3) ++ rest)
        || matchToks (PTok.seg :: ts) ((d :: v3) ++ rest))) = true
      have hc : c ≠ '/' := hall c (List.mem_cons_self _ _)
      have hrec := ih (by simp) (fun x hx => hall x (List.mem_cons_of_mem c hx)) hm
      rw [hrec, Bool.or_true, Bool.and_true]
      simp [hc]

theorem TMatch_seg_inv (ts : List PTok) (cs : List Char) (h : TMatch (PTok.seg :: ts) cs) :
    ∃ v rest, v ≠ [] ∧ (∀ c ∈ v, c ≠ '/') ∧ TMatch ts rest ∧ cs = v ++ rest := by
  cases h with
  | seg v rest tsx hne hall ht => exact ⟨v, rest, hne, hall, ht, rfl⟩

theorem matchToks_sound : ∀ cs : List Char, ∀ ts : List PTok,
    matchToks ts cs = true → TMatch ts cs := by
  intro cs
  induction cs with
  | nil =>
    intro ts h
    cases ts with
    | nil => exact TMatch.done
    | cons t ts2 => cases t <;> simp [matchToks] at h
  | cons c cs ih =>
    intro ts h
    cases ts with
    | nil =>
      have hc : c = '/' := by simpa [matchToks] using h
      subst hc
      exact TMatch.tail cs
    | cons t ts2 =>
      cases t with
      | lit p =>
        simp only [matchToks, Bool.and_eq_true] at h
        have hpc : p = c := by simpa using h.1
        subst hpc
        exact TMatch.lit p ts2 cs (ih ts2 h.2)
      | seg =>
        simp only [matchToks, Bool.and_eq_true, Bool.or_eq_true] at h
        have hc : c ≠ '/' := by simpa using h.1
        rcases h.2 with h2 | h2
        · have hm := ih ts2 h2
          have hs : TMatch (PTok.seg :: ts2) ([c] ++ cs) :=
            TMatch.seg [c] cs ts2 (by simp)
              (by intro x hx; simp at hx; subst hx; exact hc) hm
          simpa using hs
        · obtain ⟨vv, rr, hne, hall, ht, hceq⟩ :=
            TMatch_seg_inv ts2 cs (ih (PTok.seg :: ts2) h2)
          subst hceq
          exact TMatch.seg (c :: vv) rr ts2 (by simp)
            (by
              intro x hx
              rcases List.mem_cons.mp hx with hx | hx
              · subst hx; exact hc
              · exact hall x hx) ht

theorem matchToks_complete (ts : List PTok) (cs : List Char) :
    TMatch ts cs → matchToks ts cs = true := by
  intro h
  induction h with
  | done => rfl
  | tail r => simp [matchToks]
  | lit c ts2 xs hc ih => simp [matchToks, ih]
  | seg v rest ts2 hne hall hm ih => exact matchToks_seg_extend ts2 rest v hne hall ih

/-- C7: the compiled whitelist pattern is anchored at the start of the path,
each placeholder matches exactly one nonempty path segment and never crosses
a slash, and after the full literal-plus-placeholder sequence an optional
trailing /... is permitted: the executable matcher agrees with the
declarative relation `TMatch` on every token list and path, and the rule
/collections/(id) allows /collections/abc and /collections/abc/items while
rejecting bare /collections/. -/
theorem C7_theorem :
    (∀ (ts : List PTok) (cs : List Char), matchToks ts cs = true ↔ TMatch ts cs)
    ∧ is_tool_whitelisted "/collections/abc" "/collections/\x7bid\x7d" = true
    ∧ is_tool_whitelisted "/collections/abc/items" "/collections/\x7bid\x7d" = true
    ∧ is_tool_whitelisted "/collections/" "/collections/\x7bid\x7d" = false := by
  refine ⟨fun ts cs => ⟨matchToks_sound cs ts, matchToks_complete ts cs⟩,
    by decide, by decide, by decide⟩

/-- Witness for C7: the declarative relation holds concretely for the
compiled /collections/(id) pattern against the path /collections/abc. -/
theorem C7_witness : TMatch (toksOf (normEp "/collections/\x7bid\x7d").toList)
    ((normEp "/collections/abc").toList) :=
  (C7_theorem.1 (toksOf (normEp "/collections/\x7bid\x7d").toList)
    ((normEp "/collections/abc").toList)).mp (by decide)

theorem lowAl (c : Char) (h : c.isAlphanum = true) :
    (Char.toLower c).isAlphanum = true := by
  unfold Char.toLower
  by_cases hu : c.toNat ≥ 65 ∧ c.toNat ≤ 90
  · simp only [hu, if_true]
    have hv : ((c.toNat + 32)).isValidChar := by left; omega
    have hval : (Char.ofNat (c.toNat + 32)).val.toNat = c.toNat + 32 := by
      unfold Char.ofNat
      rw [dif_pos hv]
      simp [Char.ofNatAux, UInt32.toNat]
    have hlow : (Char.ofNat (c.toNat + 32)).isLower = true := by
      simp only [Char.isLower, Bool.and_eq_true, decide_eq_true_eq]
      constructor
      · show (97 : UInt32) ≤ _
        rw [UInt32.le_def, BitVec.le_def]
        have h97 : ((97 : UInt32)).toBitVec.toNat = 97 := by decide
        rw [h97]
        show 97 ≤ (Char.ofNat (c.toNat + 32)).val.toBitVec.toNat
        have hbv : (Char.ofNat (c.toNat + 32)).val.toBitVec.toNat
            = (Char.ofNat (c.toNat + 32)).val.toNat := rfl
        rw [hbv, hval]
        omega
      · show _ ≤ (122 : UInt32)
        rw [UInt32.le_def, BitVec.le_def]
        have h122 : ((122 : UInt32)).toBitVec.toNat = 122 := by decide
        rw [h122]
        show (Char.ofNat (c.toNat + 32)).val.toBitVec.toNat ≤ 122
        have hbv : (Char.ofNat (c.toNat + 32)).val.toBitVec.toNat
            = (Char.ofNat (c.toNat + 32)).val.toNat := rfl
        rw [hbv, hval]
        omega
    simp [Char.isAlphanum, Char.isAlpha, hlow]
  · simp only [hu, if_false]
    exact h

theorem lowBase (c : Char) (h : baseOk c = true) : baseOk (Char.toLower c) = true := by
  unfold baseOk at h
  simp only [Bool.or_eq_true] at h
  rcases h with ((((h | h) | h) | h) | h)
  · unfold baseOk
    simp [lowAl c h]
  · have hc : c = '.' := by simpa using h
    subst hc
    decide
  · have hc : c = '-' := by simpa using h
    subst hc
    decide
  · have hc : c = '+' := by simpa using h
    subst hc
    decide
  · have hc : c = '_' := by simpa using h
    subst hc
    decide

theorem punctGood (c : Char) (h : baseOk c = true) : goodChar (punct2und c) = true := by
  unfold baseOk at h
  simp only [Bool.or_eq_true] at h
  rcases h with ((((h | h) | h) | h) | h)
  · have h1 : (c == '.') = false := by
      cases hb : c == '.'
      · rfl
      · have hc : c = '.' := by simpa using hb
        subst hc
        exact absurd h (by decide)
    have h2 : (c == '-') = false := by
      cases hb : c == '-'
      · rfl
      · have hc : c = '-' := by simpa using hb
        subst hc
        exact absurd h (by decide)
    have h3 : (c == '+') = false := by
      cases hb : c == '+'
      · rfl
      · have hc : c = '+' := by simpa using hb
        subst hc
        exact absurd h (by decide)
    unfold punct2und
    simp only [h1, h2, h3, Bool.or_false, Bool.false_eq_true, if_false]
    unfold goodChar
    simp [h]
  · have hc : c = '.' := by simpa using h
    subst hc
    decide
  · have hc : c = '-' := by simpa using h
    subst hc
    decide
  · have hc : c = '+' := by simpa using h
    subst hc
    decide
  · have hc : c = '_' := by simpa using h
    subst hc
    decide

theorem allImp (p q : Char → Bool) (hpq : ∀ c, p c = true → q c = true) :
    ∀ l : List Char, l.all p = true → l.all q = true := by
  intro l h
  rw [List.all_eq_true] at h ⊢
  exact fun c hc => hpq c (h c hc)

theorem allDropW (p q : Char → Bool) : ∀ l : List Char,
    l.all q = true → (l.dropWhile p).all q = true := by
  intro l
  induction l with
  | nil => intro h; exact h
  | cons c r ih =>
    intro h
    simp only [List.all_cons, Bool.and_eq_true] at h
    by_cases hp : p c = true
    · rw [List.dropWhile_cons_of_pos hp]
      exact ih h.2
    · rw [List.dropWhile_cons_of_neg hp]
      simp [h.1, h.2]

theorem memDropW (p : Char → Bool) (c : Char) (hp : p c = false) : ∀ l : List Char,
    c ∈ l → c ∈ l.dropWhile p := by
  intro l
  induction l with
  | nil => intro h; exact absurd h (List.not_mem_nil c)
  | cons a r ih =>
    intro h
    by_cases ha : p a = true
    · rw [List.dropWhile_cons_of_pos ha]
      rcases List.mem_cons.mp h with heq | hmem
      · subst heq
        rw [hp] at ha
        exact absurd ha (by simp)
      · exact ih hmem
    · rw [List.dropWhile_cons_of_neg ha]
      exact h

theorem allStripP (p q : Char → Bool) (l : List Char) (h : l.all q = true) :
    (stripP p l).all q = true := by
  unfold stripP rstripP lstripP
  rw [List.all_reverse]
  apply allDropW
  rw [List.all_reverse]
  apply allDropW
  exact h

theorem memStripP (p : Char → Bool) (c : Char) (hp : p c = false) (l : List Char)
    (h : c ∈ l) : c ∈ stripP p l := by
  unfold stripP rstripP lstripP
  rw [List.mem_reverse]
  apply memDropW p c hp
  rw [List.mem_reverse]
  exact memDropW p c hp l h

theorem allCollapse (q : Char → Bool) : ∀ (l : List Char) (b : Bool),
    l.all q = true → (collapseUndSt b l).all q = true := by
  intro l
  induction l with
  | nil => intro b _; rfl
  | cons c r ih =>
    intro b h
    simp only [List.all_cons, Bool.and_eq_true] at h
    unfold collapseUndSt
    by_cases hc : (c == '_') = true
    · simp only [hc, if_true]
      by_cases hb : b = true
      · simp only [hb, if_true]
        exact ih true h.2
      · have hb2 : b = false := by cases b; rfl; exact absurd rfl hb
        simp only [hb2, Bool.false_eq_true, if_false]
        have hceq : c = '_' := by simpa using hc
        subst hceq
        simp [h.1, ih true h.2]
    · have hc2 : (c == '_') = false := by
        cases hh : c == '_'
        · rfl
        · exact absurd hh hc
      simp only [hc2, Bool.false_eq_true, if_false]
      simp [h.1, ih false h.2]

theorem memCollapse (c : Char) (hne : (c == '_') = false) : ∀ (l : List Char) (b : Bool),
    c ∈ l → c ∈ collapseUndSt b l := by
  intro l
  induction l with
  | nil => intro b h; exact absurd h (List.not_mem_nil c)
  | cons a r ih =>
    intro b h
    unfold collapseUndSt
    by_cases ha : (a == '_') = true
    · have hmem : c ∈ r := by
        rcases List.mem_cons.mp h with heq | hmem
        · subst heq
          rw [hne] at ha
          exact absurd ha (by simp)
        · exact hmem
      simp only [ha, if_true]
      by_cases hb : b = true
      · simp only [hb, if_true]
        exact ih true hmem
      · have hb2 : b = false := by cases b; rfl; exact absurd rfl hb
        simp only [hb2, Bool.false_eq_true, if_false]
        exact List.mem_cons_of_mem _ (ih true hmem)
    · have ha2 : (a == '_') = false := by
        cases hh : a == '_'
        · rfl
        · exact absurd hh ha
      simp only [ha2, Bool.false_eq_true, if_false]
      rcases List.mem_cons.mp h with heq | hmem
      · subst heq
        exact List.mem_cons_self _ _
      · exact List.mem_cons_of_mem _ (ih false hmem)

theorem allJoinUnd (q : Char → Bool) (hu : q '_' = true) : ∀ ps : List (List Char),
    (∀ p ∈ ps, p.all q = true) → (joinUnd ps).all q = true := by
  intro ps
  induction ps with
  | nil => intro _; rfl
  | cons p rest ih =>
    intro h
    cases rest with
    | nil => exact h p (List.mem_cons_self _ _)
    | cons p2 rest2 =>
      show (p ++ '_' :: joinUnd (p2 :: rest2)).all q = true
      rw [List.all_append]
      simp only [List.all_cons, hu, Bool.true_and]
      simp only [Bool.and_eq_true]
      exact ⟨h p (List.mem_cons_self _ _),
        ih (fun x hx => h x (List.mem_cons_of_mem p hx))⟩

theorem scanStBig (s : Nat) (r : List Char) (h : scanSt (s + 3) r = some 0) : False := by
  cases r with
  | nil =>
    simp only [scanSt, Option.some.injEq] at h
    omega
  | cons c r2 => simp [scanSt] at h

theorem scanStApp : ∀ (xs ys : List Char) (st : Nat),
    scanSt st (xs ++ ys) = (scanSt st xs).bind (fun s2 => scanSt s2 ys) := by
  intro xs
  induction xs with
  | nil =>
    intro ys st
    rcases st with _ | (_ | (_ | s)) <;> rfl
  | cons c r ih =>
    intro ys st
    rcases st with _ | (_ | (_ | s))
    · show scanSt 0 (c :: (r ++ ys)) = (scanSt 0 (c :: r)).bind _
      by_cases h1 : (c == '/') = true
      · simp only [scanSt, h1, if_true]
        exact ih ys 0
      · simp only [scanSt, h1, Bool.false_eq_true, if_false]
        by_cases h2 : (c == lbrace) = true
        · simp only [h2, if_true]
          exact ih ys 1
        · simp only [h2, Bool.false_eq_true, if_false]
          by_cases h3 : baseOk c = true
          · simp only [h3, if_true]
            exact ih ys 0
          · simp only [h3, Bool.false_eq_true, if_false]
            rfl
    · show scanSt 1 (c :: (r ++ ys)) = (scanSt 1 (c :: r)).bind _
      by_cases h3 : baseOk c = true
      · simp only [scanSt, h3, if_true]
        exact ih ys 2
      · simp only [scanSt, h3, Bool.false_eq_true, if_false]
        rfl
    · show scanSt 2 (c :: (r ++ ys)) = (scanSt 2 (c :: r)).bind _
      by_cases h1 : (c == rbrace) = true
      · simp only [scanSt, h1, if_true]
        exact ih ys 0
      · simp only [scanSt, h1, Bool.false_eq_true, if_false]
        by_cases h3 : baseOk c = true
        · simp only [h3, if_true]
          exact ih ys 2
        · simp only [h3, Bool.false_eq_true, if_false]
          rfl
    · show scanSt (s + 3) (c :: (r ++ ys)) = (scanSt (s + 3) (c :: r)).bind _
      simp [scanSt]

theorem slashAll : ∀ t : List Char, t.all (fun c => c == '/') = true →
    ∀ s : Nat, scanSt s t = some 0 → s = 0 := by
  intro t
  induction t with
  | nil =>
    intro _ s h
    simp only [scanSt, Option.some.injEq] at h
    exact h
  | cons c r ih =>
    intro hall s h
    simp only [List.all_cons, Bool.and_eq_true] at hall
    have hc : c = '/' := by simpa using hall.1
    subst hc
    rcases s with _ | (_ | (_ | s))
    · rfl
    · have hb : baseOk '/' = false := by decide
      simp only [scanSt, hb, Bool.false_eq_true, if_false] at h
      exact absurd h (by simp)
    · have hr : (('/' : Char) == rbrace) = false := by decide
      have hb : baseOk '/' = false := by decide
      simp only [scanSt, hr, hb, Bool.false_eq_true, if_false] at h
      exact absurd h (by simp)
    · exact absurd h (by simp [scanSt])

theorem lstripScan (l : List Char) (h : scanSt 0 l = some 0) :
    scanSt 0 (lstripP (fun c => c == '/') l) = some 0 := by
  unfold lstripP
  induction l with
  | nil => exact h
  | cons c r ih =>
    by_cases hc : (c == '/') = true
    · have heq : List.dropWhile (fun x => x == '/') (c :: r)
          = List.dropWhile (fun x => x == '/') r :=
        List.dropWhile_cons_of_pos hc
      rw [heq]
      apply ih
      simpa only [scanSt, hc, if_true] using h
    · have heq : List.dropWhile (fun x => x == '/') (c :: r) = c :: r :=
        List.dropWhile_cons_of_neg (by simp [hc])
      rw [heq]
      exact h

theorem allTakeW (p : Char → Bool) : ∀ l : List Char, (l.takeWhile p).all p = true := by
  intro l
  induction l with
  | nil => rfl
  | cons c r ih =>
    by_cases hc : p c = true
    · have heq : List.takeWhile p (c :: r) = c :: List.takeWhile p r :=
        List.takeWhile_cons_of_pos hc
      rw [heq]
      simp [hc, ih]
    · have heq : List.takeWhile p (c :: r) = [] :=
        List.takeWhile_cons_of_neg (by simp [hc])
      rw [heq]
      rfl

theorem rstripScan (l : List Char) (h : scanSt 0 l = some 0) :
    scanSt 0 (rstripP (fun c => c == '/') l) = some 0 := by
  have hdec : l = rstripP (fun c => c == '/') l
      ++ (l.reverse.takeWhile (fun c => c == '/')).reverse := by
    unfold rstripP
    have h1 : List.takeWhile (fun c => c == '/') l.reverse
        ++ List.dropWhile (fun c => c == '/') l.reverse = l.reverse :=
      List.takeWhile_append_dropWhile _ _
    have h2 := congrArg List.reverse h1
    rw [List.reverse_append, List.reverse_reverse] at h2
    exact h2.symm
  have htw : ((l.reverse.takeWhile (fun c => c == '/')).reverse).all
      (fun c => c == '/') = true := by
    rw [List.all_reverse]
    exact allTakeW _ _
  rw [hdec, scanStApp] at h
  cases hs : scanSt 0 (rstripP (fun c => c == '/') l) with
  | none =>
    rw [hs] at h
    exact Option.noConfusion h
  | some s2 =>
    rw [hs] at h
    have h4 : scanSt s2 ((l.reverse.takeWhile (fun c => c == '/')).reverse) = some 0 := h
    have h5 := slashAll _ htw s2 h4
    subst h5
    rfl

theorem leadsLApp : ∀ (pat l : List Char), leadsL pat l = true →
    l = pat ++ l.drop pat.length := by
  intro pat
  induction pat with
  | nil => intro l _; rfl
  | cons p ps ih =>
    intro l h
    cases l with
    | nil => simp [leadsL] at h
    | cons c cs =>
      simp only [leadsL, Bool.and_eq_true] at h
      have hpc : p = c := by simpa using h.1
      subst hpc
      have := ih cs h.2
      simp only [List.length_cons, List.drop_succ_cons, List.cons_append]
      exact congrArg (p :: ·) this

theorem stripKeyScan (l l2 : List Char) (h : stripKey l = some l2)
    (hs : scanSt 0 l = some 0) : scanSt 0 l2 = some 0 := by
  unfold stripKey at h
  repeat' split at h
  all_goals simp only [Option.some.injEq, reduceCtorEq] at h
  all_goals subst h
  all_goals rename_i hl
  all_goals rw [leadsLApp _ _ hl] at hs
  all_goals rw [scanStApp] at hs
  all_goals exact hs

theorem stripKeySlash (l l2 : List Char) (h : stripKey l = some l2) :
    ∃ r, l = '/' :: r := by
  cases l with
  | nil => simp [stripKey, leadsL] at h
  | cons c r =>
    refine ⟨r, ?_⟩
    unfold stripKey at h
    repeat' split at h
    all_goals try simp only [reduceCtorEq] at h
    all_goals rename_i hl
    all_goals simp only [leadsL, Bool.and_eq_true] at hl
    all_goals (have hc : '/' = c := by simpa using hl.1)
    all_goals rw [← hc]

theorem subApiScan : ∀ (f : Nat) (l : List Char) (st : Nat),
    scanSt st l = some 0 → scanSt st (subApiF f l) = some 0 := by
  intro f
  induction f with
  | zero =>
    intro l st h
    cases l with
    | nil => exact h
    | cons c r => exact h
  | succ f ih =>
    intro l st h
    cases l with
    | nil => exact h
    | cons c rest =>
      show scanSt st (match stripKey (c :: rest) with
        | some l2 => '/' :: subApiF f l2
        | none => c :: subApiF f rest) = some 0
      cases hk : stripKey (c :: rest) with
      | some l2 =>
        obtain ⟨r2, hr2⟩ := stripKeySlash _ _ hk
        have hcr : c = '/' := by
          have := congrArg (List.head? ·) hr2
          simpa using this
        subst hcr
        rcases st with _ | (_ | (_ | s))
        · have hs2 := stripKeyScan _ _ hk h
          show scanSt 0 ('/' :: subApiF f l2) = some 0
          have hstep : scanSt 0 ('/' :: subApiF f l2) = scanSt 0 (subApiF f l2) := by
            simp [scanSt]
          rw [hstep]
          exact ih l2 0 hs2
        · exact absurd h (by simp [scanSt, (by decide : baseOk '/' = false)])
        · exact absurd h (by
            simp [scanSt, (by decide : baseOk '/' = false),
              (by decide : (('/' : Char) == rbrace) = false)])
        · exact absurd h (by simp [scanSt])
      | none =>
        rcases st with _ | (_ | (_ | s))
        · by_cases h1 : (c == '/') = true
          · simp only [scanSt, h1, if_true] at h ⊢
            exact ih rest 0 h
          · simp only [scanSt, h1, Bool.false_eq_true, if_false] at h ⊢
            by_cases h2 : (c == lbrace) = true
            · simp only [h2, if_true] at h ⊢
              exact ih rest 1 h
            · simp only [h2, Bool.false_eq_true, if_false] at h ⊢
              by_cases h3 : baseOk c = true
              · simp only [h3, if_true] at h ⊢
                exact ih rest 0 h
              · simp only [h3, Bool.false_eq_true, if_false] at h
                exact absurd h (by simp)
        · by_cases h3 : baseOk c = true
          · simp only [scanSt, h3, if_true] at h ⊢
            exact ih rest 2 h
          · simp only [scanSt, h3, Bool.false_eq_true, if_false] at h
            exact absurd h (by simp)
        · by_cases h1 : (c == rbrace) = true
          · simp only [scanSt, h1, if_true] at h ⊢
            exact ih rest 0 h
          · simp only [scanSt, h1, Bool.false_eq_true, if_false] at h ⊢
            by_cases h3 : baseOk c = true
            · simp only [h3, if_true] at h ⊢
              exact ih rest 2 h
            · simp only [h3, Bool.false_eq_true, if_false] at h
              exact absurd h (by simp)
        · exact absurd h (by simp [scanSt])

theorem splitCharConsNe (c : Char) (r : List Char) (hc : (c == '/') = false)
    (p : List Char) (ps : List (List Char)) (hsp : splitChar '/' r = p :: ps) :
    splitChar '/' (c :: r) = (c :: p) :: ps := by
  show (if c == '/' then [] :: splitChar '/' r
    else match splitChar '/' r with
      | p :: ps => (c :: p) :: ps
      | [] => [[c]]) = _
  rw [hc]
  simp only [Bool.false_eq_true, if_false, hsp]

theorem scanStSplit : ∀ (l : List Char) (st : Nat), (st = 0 ∨ st = 1 ∨ st = 2) →
    scanSt st l = some 0 →
    ∃ p ps, splitChar '/' l = p :: ps ∧ scanSt st p = some 0
      ∧ p.all (fun c => !(c == '/')) = true
      ∧ ∀ q ∈ ps, scanSt 0 q = some 0 ∧ q.all (fun c => !(c == '/')) = true := by
  intro l
  induction l with
  | nil =>
    intro st _ h
    have hst : st = 0 := by
      rcases st with _ | (_ | (_ | s))
      · rfl
      · exact absurd h (by simp [scanSt])
      · exact absurd h (by simp [scanSt])
      · exact absurd h (by simp [scanSt])
    subst hst
    exact ⟨[], [], rfl, rfl, rfl, by simp⟩
  | cons c r ih =>
    intro st hst h
    by_cases hc : (c == '/') = true
    · have hst0 : st = 0 := by
        rcases hst with rfl | rfl | rfl
        · rfl
        · have hcc : c = '/' := by simpa using hc
          subst hcc
          exact absurd h (by simp [scanSt, (by decide : baseOk '/' = false)])
        · have hcc : c = '/' := by simpa using hc
          subst hcc
          exact absurd h (by
            simp [scanSt, (by decide : baseOk '/' = false),
              (by decide : (('/' : Char) == rbrace) = false)])
      subst hst0
      have hr : scanSt 0 r = some 0 := by
        simpa only [scanSt, hc, if_true] using h
      obtain ⟨p, ps, hsp, hp0, hpall, hps⟩ := ih 0 (Or.inl rfl) hr
      refine ⟨[], p :: ps, ?_, rfl, rfl, ?_⟩
      · show (if c == '/' then [] :: splitChar '/' r else _) = _
        rw [hc]
        simp only [if_true, hsp]
      · intro q hq
        rcases List.mem_cons.mp hq with rfl | hq2
        · exact ⟨hp0, hpall⟩
        · exact hps q hq2
    · have hcf : (c == '/') = false := by
        cases hh : c == '/'
        · rfl
        · exact absurd hh hc
      rcases hst with rfl | rfl | rfl
      · by_cases h2 : (c == lbrace) = true
        · have hr : scanSt 1 r = some 0 := by
            simpa only [scanSt, hcf, Bool.false_eq_true, if_false, h2, if_true] using h
          obtain ⟨p, ps, hsp, hp0, hpall, hps⟩ := ih 1 (Or.inr (Or.inl rfl)) hr
          refine ⟨c :: p, ps, splitCharConsNe c r hcf p ps hsp, ?_, ?_, hps⟩
          · simp only [scanSt, hcf, Bool.false_eq_true, if_false, h2, if_true]
            exact hp0
          · simp only [List.all_cons, hcf, Bool.not_false, Bool.true_and]
            exact hpall
        · have h2f : (c == lbrace) = false := by
            cases hh : c == lbrace
            · rfl
            · exact absurd hh h2
          by_cases h3 : baseOk c = true
          · have hr : scanSt 0 r = some 0 := by
              simpa only [scanSt, hcf, Bool.false_eq_true, if_false, h2f, h3,
                if_true] using h
            obtain ⟨p, ps, hsp, hp0, hpall, hps⟩ := ih 0 (Or.inl rfl) hr
            refine ⟨c :: p, ps, splitCharConsNe c r hcf p ps hsp, ?_, ?_, hps⟩
            · simp only [scanSt, hcf, Bool.false_eq_true, if_false, h2f, h3, if_true]
              exact hp0
            · simp only [List.all_cons, hcf, Bool.not_false, Bool.true_and]
              exact hpall
          · have h3f : baseOk c = false := by
              cases hh : baseOk c
              · rfl
              · exact absurd hh h3
            exact absurd h (by
              simp [scanSt, hcf, h2f, h3f])
      · by_cases h3 : baseOk c = true
        · have hr : scanSt 2 r = some 0 := by
            simpa only [scanSt, h3, if_true] using h
          obtain ⟨p, ps, hsp, hp0, hpall, hps⟩ := ih 2 (Or.inr (Or.inr rfl)) hr
          refine ⟨c :: p, ps, splitCharConsNe c r hcf p ps hsp, ?_, ?_, hps⟩
          · simp only [scanSt, h3, if_true]
            exact hp0
          · simp only [List.all_cons, hcf, Bool.not_false, Bool.true_and]
            exact hpall
        · have h3f : baseOk c = false := by
            cases hh : baseOk c
            · rfl
            · exact absurd hh h3
          exact absurd h (by simp [scanSt, h3f])
      · by_cases h1 : (c == rbrace) = true
        · have hr : scanSt 0 r = some 0 := by
            simpa only [scanSt, h1, if_true] using h
          obtain ⟨p, ps, hsp, hp0, hpall, hps⟩ := ih 0 (Or.inl rfl) hr
          refine ⟨c :: p, ps, splitCharConsNe c r hcf p ps hsp, ?_, ?_, hps⟩
          · simp only [scanSt, h1, if_true]
            exact hp0
          · simp only [List.all_cons, hcf, Bool.not_false, Bool.true_and]
            exact hpall
        · have h1f : (c == rbrace) = false := by
            cases hh : c == rbrace
            · rfl
            · exact absurd hh h1
          by_cases h3 : baseOk c = true
          · have hr : scanSt 2 r = some 0 := by
              simpa only [scanSt, h1f, Bool.false_eq_true, if_false, h3, if_true] using h
            obtain ⟨p, ps, hsp, hp0, hpall, hps⟩ := ih 2 (Or.inr (Or.inr rfl)) hr
            refine ⟨c :: p, ps, splitCharConsNe c r hcf p ps hsp, ?_, ?_, hps⟩
            · simp only [scanSt, h1f, Bool.false_eq_true, if_false, h3, if_true]
              exact hp0
            · simp only [List.all_cons, hcf, Bool.not_false, Bool.true_and]
              exact hpall
          · have h3f : baseOk c = false := by
              cases hh : baseOk c
              · rfl
              · exact absurd hh h3
            exact absurd h (by simp [scanSt, h1f, h3f])

theorem splitCloseEq : ∀ (r i t : List Char), splitClose r = some (i, t) →
    r = i ++ rbrace :: t := by
  intro r
  induction r with
  | nil => intro i t h; exact absurd h (by simp [splitClose])
  | cons c r2 ih =>
    intro i t h
    simp only [splitClose] at h
    by_cases hc : (c == rbrace) = true
    · simp only [hc, if_true, Option.some.injEq, Prod.mk.injEq] at h
      obtain ⟨h1, h2⟩ := h
      subst h1
      subst h2
      have hcc : c = rbrace := by simpa using hc
      subst hcc
      rfl
    · simp only [hc, Bool.false_eq_true, if_false] at h
      cases hs2 : splitClose r2 with
      | none => rw [hs2] at h; exact absurd h (by simp)
      | some p =>
        obtain ⟨i2, t2⟩ := p
        rw [hs2] at h
        have h3 : (c :: i2, t2) = (i, t) := Option.some.inj h
        have h1 : c :: i2 = i := congrArg Prod.fst h3
        have h2 : t2 = t := congrArg Prod.snd h3
        rw [← h1, ← h2]
        have := ih i2 t2 hs2
        rw [List.cons_append]
        exact congrArg (c :: ·) this

theorem scan2Close : ∀ r : List Char, scanSt 2 r = some 0 →
    ∃ i t, splitClose r = some (i, t) ∧ i.all baseOk = true ∧ scanSt 0 t = some 0 := by
  intro r
  induction r with
  | nil =>
    intro h
    simp only [scanSt, Option.some.injEq] at h
    exact absurd h (by decide)
  | cons c r2 ih =>
    intro h
    by_cases hc : (c == rbrace) = true
    · have hr : scanSt 0 r2 = some 0 := by
        simpa only [scanSt, hc, if_true] using h
      refine ⟨[], r2, ?_, rfl, hr⟩
      show (if c == rbrace then some ([], r2) else (splitClose r2).map _) = some ([], r2)
      rw [if_pos hc]
    · have hcf : (c == rbrace) = false := by
        cases hh : c == rbrace
        · rfl
        · exact absurd hh hc
      by_cases hb : baseOk c = true
      · have hr : scanSt 2 r2 = some 0 := by
          simpa only [scanSt, hcf, Bool.false_eq_true, if_false, hb, if_true] using h
        obtain ⟨i2, t, hsc, hall, ht⟩ := ih hr
        refine ⟨c :: i2, t, ?_, ?_, ht⟩
        · show (if c == rbrace then some ([], r2) else (splitClose r2).map _)
            = some (c :: i2, t)
          rw [if_neg (by simp [hcf]), hsc]
          rfl
        · simp [hb, hall]
      · have hbf : baseOk c = false := by
          cases hh : baseOk c
          · rfl
          · exact absurd hh hb
        exact absurd h (by simp [scanSt, hcf, hbf])

theorem scan1Close : ∀ r : List Char, scanSt 1 r = some 0 →
    ∃ i t, splitClose r = some (i, t) ∧ i ≠ [] ∧ i.all baseOk = true
      ∧ scanSt 0 t = some 0 := by
  intro r
  cases r with
  | nil =>
    intro h
    simp only [scanSt, Option.some.injEq] at h
    exact absurd h (by decide)
  | cons c r2 =>
    intro h
    by_cases hb : baseOk c = true
    · have hr : scanSt 2 r2 = some 0 := by
        simpa only [scanSt, hb, if_true] using h
      obtain ⟨i2, t, hsc, hall, ht⟩ := scan2Close r2 hr
      have hcr : (c == rbrace) = false := by
        cases hh : c == rbrace
        · rfl
        · have hcc : c = rbrace := by simpa using hh
          subst hcc
          exact absurd hb (by decide)
      refine ⟨c :: i2, t, ?_, by simp, by simp [hb, hall], ht⟩
      show (if c == rbrace then some ([], r2) else (splitClose r2).map _)
        = some (c :: i2, t)
      rw [if_neg (by simp [hcr]), hsc]
      rfl
    · have hbf : baseOk c = false := by
        cases hh : baseOk c
        · rfl
        · exact absurd hh hb
      exact absurd h (by simp [scanSt, hbf])

theorem braceScanB : ∀ (n : Nat) (l : List Char), l.length ≤ n →
    scanSt 0 l = some 0 → l.all (fun c => !(c == '/')) = true →
    ((braceScanL l).1.all baseOk = true
     ∧ (∀ nm ∈ (braceScanL l).2, nm ≠ [] ∧ nm.all baseOk = true)
     ∧ ((braceScanL l).2 = [] → (braceScanL l).1 = l)) := by
  intro n
  induction n with
  | zero =>
    intro l hlen _ _
    have hnil : l = [] := by
      cases l with
      | nil => rfl
      | cons c r => simp at hlen
    subst hnil
    exact ⟨rfl, by simp [braceScanL, braceScanF], fun _ => rfl⟩
  | succ n ih =>
    intro l hlen h hns
    cases l with
    | nil => exact ⟨rfl, by simp [braceScanL, braceScanF], fun _ => rfl⟩
    | cons c rest =>
      simp only [List.all_cons, Bool.and_eq_true] at hns
      have hcf : (c == '/') = false := by
        cases hh : c == '/'
        · rfl
        · rw [hh] at hns
          exact absurd hns.1 (by simp)
      by_cases hb : (c == lbrace) = true
      · have h1 : scanSt 1 rest = some 0 := by
          simpa only [scanSt, hcf, Bool.false_eq_true, if_false, hb, if_true] using h
        obtain ⟨i, t, hsc, hne, hiall, ht0⟩ := scan1Close rest h1
        obtain ⟨d, i2, hdi⟩ : ∃ d i2, i = d :: i2 := by
          cases i with
          | nil => exact absurd rfl hne
          | cons d i2 => exact ⟨d, i2, rfl⟩
        have hEq : braceScanL (c :: rest) = ((braceScanL t).1, i :: (braceScanL t).2) := by
          rw [braceScanL_cons, if_pos hb, hsc, hdi]
          rfl
        have hre : rest = i ++ rbrace :: t := splitCloseEq rest i t hsc
        have hlt : t.length ≤ n := by
          have := congrArg List.length hre
          simp only [List.length_append, List.length_cons] at this
          simp only [List.length_cons] at hlen
          omega
        have htns : t.all (fun c => !(c == '/')) = true := by
          have h2 := hns.2
          rw [hre, List.all_append, List.all_cons, Bool.and_eq_true, Bool.and_eq_true] at h2
          exact h2.2.2
        have hihl := ih t hlt ht0 htns
        rw [hEq]
        refine ⟨hihl.1, ?_, ?_⟩
        · intro nm hnm
          rcases List.mem_cons.mp hnm with rfl | hnm2
          · exact ⟨hne, hiall⟩
          · exact hihl.2.1 nm hnm2
        · intro hx
          exact absurd hx (by simp)
      · have hEq : braceScanL (c :: rest)
            = (c :: (braceScanL rest).1, (braceScanL rest).2) := by
          rw [braceScanL_cons, if_neg (by simp [hb])]
        by_cases hbase : baseOk c = true
        · have hr : scanSt 0 rest = some 0 := by
            simpa only [scanSt, hcf, Bool.false_eq_true, if_false,
              (by cases hh : c == lbrace; rfl; exact absurd hh hb :
                (c == lbrace) = false), hbase, if_true] using h
          have hihl := ih rest (by simpa using hlen) hr hns.2
          rw [hEq]
          refine ⟨by simp [hbase, hihl.1], hihl.2.1, ?_⟩
          intro hx
          rw [hihl.2.2 hx]
        · have hbasef : baseOk c = false := by
            cases hh : baseOk c
            · rfl
            · exact absurd hh hbase
          have hlf : (c == lbrace) = false := by
            cases hh : c == lbrace
            · rfl
            · exact absurd hh hb
          exact absurd h (by simp [scanSt, hcf, hlf, hbasef])

theorem procPartGood (p : List Char) (h0 : scanSt 0 p = some 0)
    (hns : p.all (fun c => !(c == '/')) = true) :
    (procPart p).all goodChar = true := by
  have hb := braceScanB p.length p (le_refl _) h0 hns
  show ((if (braceScanL p).2.isEmpty then p
    else (braceScanL p).1 ++ "_by_".toList
      ++ joinUnd ((braceScanL p).2.map (List.map Char.toLower))).map punct2und).all
    goodChar = true
  by_cases he : (braceScanL p).2.isEmpty = true
  · have h2 : (braceScanL p).2 = [] := by
      cases hxx : (braceScanL p).2 with
      | nil => rfl
      | cons a b =>
        rw [hxx] at he
        exact absurd he (by simp)
    have h1 : (braceScanL p).1 = p := hb.2.2 h2
    rw [if_pos he]
    have hallp : p.all baseOk = true := h1 ▸ hb.1
    rw [List.all_map]
    exact allImp _ _ (fun c hc => punctGood c hc) p hallp
  · rw [if_neg he]
    have hall : ((braceScanL p).1 ++ "_by_".toList
        ++ joinUnd ((braceScanL p).2.map (List.map Char.toLower))).all baseOk = true := by
      rw [List.all_append, Bool.and_eq_true]
      refine ⟨?_, ?_⟩
      · rw [List.all_append, Bool.and_eq_true]
        exact ⟨hb.1, by decide⟩
      · apply allJoinUnd baseOk (by decide)
        intro q hq
        obtain ⟨nm, hnm, hq2⟩ := List.mem_map.mp hq
        subst hq2
        rw [List.all_map]
        exact allImp _ _ (fun c hc => lowBase c hc) nm (hb.2.1 nm hnm).2
    rw [List.all_map]
    exact allImp _ _ (fun c hc => punctGood c hc) _ hall

theorem partsGood (p3 : List Char) (h3 : scanSt 0 p3 = some 0) :
    ∀ q ∈ ((splitChar '/' p3).map procPart).filter (fun x => !x.isEmpty),
      q.all goodChar = true := by
  intro q hq
  have hq2 := (List.mem_filter.mp hq).1
  obtain ⟨seg, hseg, hq3⟩ := List.mem_map.mp hq2
  subst hq3
  obtain ⟨p, ps, hsp, hp0, hpall, hps⟩ := scanStSplit p3 0 (Or.inl rfl) h3
  rw [hsp] at hseg
  rcases List.mem_cons.mp hseg with rfl | hseg2
  · exact procPartGood seg hp0 hpall
  · exact procPartGood seg (hps seg hseg2).1 (hps seg hseg2).2

theorem stripCorePos (c0 : Char) (rest : List Char) (hc0u : (c0 == '_') = false) :
    1 ≤ (stripP (fun c => c == '_') (collapseUnd (c0 :: rest))).length := by
  have hmem : c0 ∈ stripP (fun c => c == '_') (collapseUnd (c0 :: rest)) :=
    memStripP _ c0 hc0u _
      (memCollapse c0 hc0u (c0 :: rest) false (List.mem_cons_self _ _))
  cases hx : stripP (fun c => c == '_') (collapseUnd (c0 :: rest)) with
  | nil =>
    rw [hx] at hmem
    exact absurd hmem (List.not_mem_nil c0)
  | cons a b => simp

theorem rawToolNameOk (mth pth : List Char) (pre : String)
    (hm : mth ≠ []) (hma : mth.all Char.isAlphanum = true)
    (hp : pathCharsOk pth = true) (hpre : pre.toList.all goodChar = true) :
    (rawToolName mth pth pre).toList.all goodChar = true
      ∧ 1 ≤ (rawToolName mth pth pre).length := by
  obtain ⟨c0, mrest, rfl⟩ : ∃ c0 mrest, mth = c0 :: mrest := by
    cases mth with
    | nil => exact absurd rfl hm
    | cons a b => exact ⟨a, b, rfl⟩
  simp only [List.all_cons, Bool.and_eq_true] at hma
  have hma0 : c0.isAlphanum = true := hma.1
  have hmar : mrest.all Char.isAlphanum = true := hma.2
  have h0 : scanSt 0 pth = some 0 := by simpa [pathCharsOk] using hp
  have h1 : scanSt 0 (subApiPre pth) = some 0 := subApiScan pth.length pth 0 h0
  have h2 : scanSt 0 (rstripP (fun c => c == '/')
      (lstripP (fun c => c == '/') (subApiPre pth))) = some 0 :=
    rstripScan _ (lstripScan _ h1)
  have h3 : scanSt 0 (if (rstripP (fun c => c == '/')
      (lstripP (fun c => c == '/') (subApiPre pth))).isEmpty then "root".toList
      else rstripP (fun c => c == '/')
        (lstripP (fun c => c == '/') (subApiPre pth))) = some 0 := by
    by_cases he : (rstripP (fun c => c == '/')
        (lstripP (fun c => c == '/') (subApiPre pth))).isEmpty = true
    · rw [if_pos he]
      decide
    · rw [if_neg he]
      exact h2
  have hu0 : (Char.toLower c0 == '_') = false := by
    cases hh : Char.toLower c0 == '_'
    · rfl
    · have heq : Char.toLower c0 = '_' := by simpa using hh
      have hA := lowAl c0 hma0
      rw [heq] at hA
      exact absurd hA (by decide)
  simp only [rawToolName]
  constructor
  · show (List.all (pre.toList ++ _) goodChar) = true
    rw [List.all_append, Bool.and_eq_true]
    refine ⟨hpre, ?_⟩
    apply allStripP
    apply allCollapse
    rw [List.all_append, Bool.and_eq_true]
    constructor
    · rw [List.all_map]
      exact allImp Char.isAlphanum (goodChar ∘ Char.toLower)
        (fun c hc => by simp [Function.comp, goodChar, lowAl c hc]) (c0 :: mrest)
        (by simp [List.all_cons, hma0, hmar])
    · rw [List.all_cons, Bool.and_eq_true]
      refine ⟨by decide, ?_⟩
      apply allJoinUnd goodChar (by decide)
      exact partsGood _ h3
  · show 1 ≤ (List.length (pre.toList ++ _))
    rw [List.length_append]
    refine le_trans ?_ (Nat.le_add_left _ _)
    exact stripCorePos (Char.toLower c0) _ hu0

theorem toolNameOkIff (s : String) (h1 : 1 ≤ s.length) (h2 : s.length ≤ 64)
    (h3 : s.toList.all goodChar = true) : toolNameOk s = true := by
  unfold toolNameOk
  simp only [Bool.and_eq_true, decide_eq_true_eq]
  exact ⟨⟨h1, h2⟩, h3⟩

theorem allTake (q : Char → Bool) (n : Nat) (l : List Char) (h : l.all q = true) :
    (l.take n).all q = true := by
  rw [List.all_eq_true] at h ⊢
  intro c hc
  exact h c (List.mem_of_mem_take hc)

theorem takeLen (n : Int) (l : List Char) (h : 0 ≤ n) :
    (pyTakeInt n l).length = min n.toNat l.length := by
  unfold pyTakeInt
  rw [if_pos h]
  exact List.length_take _ _

/-- C2 (amended): for every method-plus-path raw name (one containing a
space) and every positive custom cap, the output length of
`normalize_tool_name` never exceeds the effective limit min(customCap, 64),
and when the untruncated name exceeds that limit the output is truncated to
exactly the limit; the output additionally matches the protocol pattern
(1-64 characters from [A-Za-z0-9_-]) provided the method is nonempty
alphanumeric, the path is made of handled characters with well-formed
placeholders, and the configured prefix uses pattern characters. For paths
with unhandled characters such as a tilde the pattern half fails, because
the normalizer only replaces the punctuation characters . - +. -/
theorem C2_theorem (raw : String) (cap : Option Int) (pre : String)
    (mth pth : List Char)
    (hsp : splitSp raw.toList = some (mth, pth))
    (hcap : ∀ m, cap = some m → 0 < m) :
    ((normalize_tool_name raw cap pre).length ≤ (effLimit cap).toNat
      ∧ (effLimit cap).toNat ≤ 64
      ∧ (effLimit cap < ((rawToolName mth pth pre).length : Int) →
          (normalize_tool_name raw cap pre).length = (effLimit cap).toNat))
    ∧ (mth ≠ [] → mth.all Char.isAlphanum = true → pathCharsOk pth = true →
        pre.toList.all goodChar = true →
        toolNameOk (normalize_tool_name raw cap pre) = true) := by
  have hlim : 0 < effLimit cap ∧ effLimit cap ≤ 64 := by
    cases cap with
    | none => exact ⟨by decide, by decide⟩
    | some m =>
      have hm := hcap m rfl
      show 0 < (if m < 64 then m else 64) ∧ (if m < 64 then m else 64) ≤ 64
      constructor <;> (split_ifs <;> omega)
  have hx : (rawToolName mth pth pre).toList.length
      = (rawToolName mth pth pre).length := rfl
  simp only [normalize_tool_name, hsp]
  constructor
  · by_cases htr : effLimit cap < ((rawToolName mth pth pre).length : Int)
    · rw [if_pos htr]
      have hlen : (String.mk (pyTakeInt (effLimit cap)
          (rawToolName mth pth pre).toList)).length
          = min (effLimit cap).toNat (rawToolName mth pth pre).length := by
        show (pyTakeInt (effLimit cap) (rawToolName mth pth pre).toList).length = _
        rw [takeLen _ _ (le_of_lt hlim.1)]
        rw [hx]
      rw [hlen]
      have hK : (effLimit cap).toNat ≤ (rawToolName mth pth pre).length := by omega
      rw [min_eq_left hK]
      exact ⟨le_refl _, by omega, fun _ => rfl⟩
    · rw [if_neg htr]
      exact ⟨by omega, by omega, fun hcontra => absurd hcontra htr⟩
  · intro hm1 hm2 hm3 hm4
    obtain ⟨hall, hpos⟩ := rawToolNameOk mth pth pre hm1 hm2 hm3 hm4
    by_cases htr : effLimit cap < ((rawToolName mth pth pre).length : Int)
    · rw [if_pos htr]
      apply toolNameOkIff
      · show 1 ≤ (pyTakeInt (effLimit cap) (rawToolName mth pth pre).toList).length
        rw [takeLen _ _ (le_of_lt hlim.1)]
        omega
      · show (pyTakeInt (effLimit cap) (rawToolName mth pth pre).toList).length ≤ 64
        rw [takeLen _ _ (le_of_lt hlim.1)]
        omega
      · show (pyTakeInt (effLimit cap) (rawToolName mth pth pre).toList).all
          goodChar = true
        unfold pyTakeInt
        rw [if_pos (le_of_lt hlim.1)]
        exact allTake goodChar _ _ hall
    · rw [if_neg htr]
      apply toolNameOkIff
      · exact hpos
      · omega
      · exact hall

/-- Witness for C2 at the raw name GET /pets/(petId) with custom cap 10:
the output obeys the cap and matches the protocol pattern. -/
theorem C2_witness :
    (normalize_tool_name "GET /pets/\x7bpetId\x7d" (some 10) "").length
        ≤ (effLimit (some 10)).toNat
    ∧ toolNameOk (normalize_tool_name "GET /pets/\x7bpetId\x7d" (some 10) "") = true := by
  have h := C2_theorem "GET /pets/\x7bpetId\x7d" (some 10) "" "GET".toList
    "/pets/\x7bpetId\x7d".toList (by decide)
    (by
      intro m hm
      injection hm with h2
      rw [← h2]
      decide)
  exact ⟨h.1.1, h.2 (by decide) (by decide) (by decide) (by decide)⟩

end MOP
